import Mathlib

set_option maxHeartbeats 1000000

/-!
Verification of the chat-log store in `internal/chats/store.go`.

The store persists conversational messages as newline-delimited JSON records,
one file per session, under two status directories (`active`, `archived`).
This development shallowly embeds the store: file contents are lists of
characters, directories are association lists from filename to content, and
the fallible filesystem operations are explicit state transformers.  The
`encoding/json` behaviour relevant to the store (struct marshalling with a
`json.RawMessage` payload, which is validated, compacted and HTML-escaped by
`json.Marshal`, and captured verbatim by `json.Unmarshal`) is embedded as an
executable scanner, and Go's `sort.Slice` (pattern-defeating quicksort, not
stable) is embedded positionally.
-/

namespace ChatStore

/-- Byte sequences are modelled as lists of characters: the store only ever
handles UTF-8 text (JSON lines), so a character-level model is faithful. -/
abbrev Bytes := List Char

/-- JSON insignificant whitespace, as accepted by Go `encoding/json`. -/
def isWS (c : Char) : Bool := c == ' ' || c == '\t' || c == '\n' || c == '\r'

/-- Skip insignificant whitespace. -/
def skipWS (s : Bytes) : Bytes := s.dropWhile isWS

/-- Go `bufio.dropCR`: strip one trailing carriage return from a line. -/
def dropCR (s : Bytes) : Bytes := if s.getLast? = some '\r' then s.dropLast else s

/-- Worker for `splitLines`; `acc` is the portion of the current line read so
far.  Mirrors `bufio.Scanner` with `bufio.ScanLines`: tokens are terminated by
a newline, a trailing carriage return is dropped, and a non-empty final line
without a terminator is still produced. -/
def splitLinesAux : Bytes → Bytes → List Bytes
  | [], acc => if acc.isEmpty then [] else [dropCR acc]
  | c :: rest, acc =>
    if c = '\n' then dropCR acc :: splitLinesAux rest []
    else splitLinesAux rest (acc ++ [c])

/-- Split a file body into lines the way `bufio.Scanner`/`ScanLines` does in
`readMessages`. -/
def splitLines (s : Bytes) : List Bytes := splitLinesAux s []

/-- A directory is an association list from filename to raw file content.
(`os.ReadDir` enumerates it sorted by name; real directories have no
duplicate names.) -/
abbrev Dirn := List (String × Bytes)

/-- Look up a file in a directory. -/
def dirGet (d : Dirn) (name : String) : Option Bytes :=
  (d.find? (fun e => e.1 == name)).map Prod.snd

/-- Create or overwrite a file in a directory. -/
def dirPut (d : Dirn) (name : String) (content : Bytes) : Dirn :=
  match d with
  | [] => [(name, content)]
  | e :: rest => if e.1 == name then (name, content) :: rest else e :: dirPut rest name content

/-- Delete a file from a directory (`os.Remove`). -/
def dirDel (d : Dirn) (name : String) : Dirn := d.filter (fun e => e.1 != name)

/-- One decimal digit as a character. -/
def digitChar (n : Nat) : Char := Char.ofNat (48 + n)

/-- Decimal digits of `n`, most significant first (`fuel` bounds recursion;
`fuel > n` always suffices). -/
def natDigitsAux : Nat → Nat → List Nat
  | 0, _ => []
  | fuel+1, n => if n < 10 then [n] else natDigitsAux fuel (n / 10) ++ [n % 10]

/-- Decimal rendering of a natural number. -/
def natDecimal (n : Nat) : Bytes := (natDigitsAux (n+1) n).map digitChar

/-- Is `c` an ASCII decimal digit? -/
def isDigit (c : Char) : Bool := 48 ≤ c.toNat && c.toNat ≤ 57

/-- Accumulating decimal parser; fails on any non-digit. -/
def parseDecimalAux : Bytes → Nat → Option Nat
  | [], acc => some acc
  | c :: rest, acc => if isDigit c then parseDecimalAux rest (acc * 10 + (c.toNat - 48)) else none

/-- Parse a non-empty string of decimal digits. -/
def parseDecimal (s : Bytes) : Option Nat :=
  if s.isEmpty then none else parseDecimalAux s 0

theorem parseDecimalAux_append (l1 l2 : Bytes) (acc : Nat) :
    parseDecimalAux (l1 ++ l2) acc =
      (parseDecimalAux l1 acc).bind (fun a => parseDecimalAux l2 a) := by
  induction l1 generalizing acc with
  | nil => simp [parseDecimalAux]
  | cons c rest ih =>
    simp only [List.cons_append, parseDecimalAux]
    by_cases h : isDigit c
    · simp [h, ih]
    · simp [h]

theorem digitChar_toNat (d : Nat) (hd : d < 10) : (digitChar d).toNat = 48 + d := by
  interval_cases d <;> rfl

theorem isDigit_digitChar (d : Nat) (hd : d < 10) : isDigit (digitChar d) = true := by
  interval_cases d <;> rfl

theorem parseDecimalAux_digits (n : Nat) :
    ∀ fuel acc, n < fuel →
      parseDecimalAux ((natDigitsAux fuel n).map digitChar) acc =
        some (acc * 10 ^ (natDigitsAux fuel n).length + n) := by
  induction n using Nat.strong_induction_on with
  | _ n ih =>
    intro fuel acc hfuel
    match fuel with
    | fuel + 1 =>
      by_cases h10 : n < 10
      · simp only [natDigitsAux, if_pos h10, List.map_cons, List.map_nil, parseDecimalAux,
          isDigit_digitChar n h10, if_true, digitChar_toNat n h10, List.length_cons,
          List.length_nil]
        simp
      · have hdiv : n / 10 < n := Nat.div_lt_self (by omega) (by omega)
        have hdivfuel : n / 10 < fuel := by omega
        simp only [natDigitsAux, if_neg h10, List.map_append, List.map_cons, List.map_nil,
          parseDecimalAux_append, ih (n / 10) hdiv fuel acc hdivfuel, Option.bind_some,
          Option.some_bind]
        have hmod : n % 10 < 10 := Nat.mod_lt _ (by omega)
        simp only [parseDecimalAux, isDigit_digitChar _ hmod, if_true,
          digitChar_toNat _ hmod, List.length_append, List.length_cons, List.length_nil]
        congr 1
        have : 48 + n % 10 - 48 = n % 10 := by omega
        rw [this]
        rw [pow_add]
        ring_nf
        omega

theorem natDigitsAux_ne_nil (fuel n : Nat) (h : 0 < fuel) : natDigitsAux fuel n ≠ [] := by
  match fuel with
  | fuel + 1 =>
    by_cases h10 : n < 10
    · simp [natDigitsAux, h10]
    · simp [natDigitsAux, h10]

/-- Decimal round-trip: parsing the rendering of `n` gives back `n`. -/
theorem parseDecimal_natDecimal (n : Nat) : parseDecimal (natDecimal n) = some n := by
  have hne : natDigitsAux (n+1) n ≠ [] := natDigitsAux_ne_nil _ _ (by omega)
  have : (natDecimal n).isEmpty = false := by
    unfold natDecimal
    cases h : natDigitsAux (n+1) n with
    | nil => exact absurd h hne
    | cons a l => simp [h]
  rw [parseDecimal, this]
  simp only [Bool.false_eq_true, if_false, natDecimal]
  rw [parseDecimalAux_digits n (n+1) 0 (by omega)]
  simp

/-- Lower-case hexadecimal digit. -/
def hexDigitChar (n : Nat) : Char :=
  if n < 10 then Char.ofNat (48 + n) else Char.ofNat (87 + n)

/-- Four-digit lower-case hex rendering, as in `\u00xx` escapes. -/
def hex4 (n : Nat) : Bytes :=
  [hexDigitChar (n / 4096 % 16), hexDigitChar (n / 256 % 16),
   hexDigitChar (n / 16 % 16), hexDigitChar (n % 16)]

/-- Go `encoding/json` string escaping of one rune with `escapeHTML=true`
(the default used by `json.Marshal`): quote, backslash and the common control
characters get two-character escapes, other control characters and the
HTML-sensitive runes `<`, `>`, `&`, U+2028, U+2029 get `\u`-escapes, and
everything else is emitted verbatim. -/
def escChar (c : Char) : Bytes :=
  if c = '"' then ['\\', '"']
  else if c = '\\' then ['\\', '\\']
  else if c = '\n' then ['\\', 'n']
  else if c = '\r' then ['\\', 'r']
  else if c = '\t' then ['\\', 't']
  else if c.toNat < 32 || c = '<' || c = '>' || c = '&' ||
      c.toNat = 8232 || c.toNat = 8233 then
    '\\' :: 'u' :: hex4 c.toNat
  else [c]

/-- Escape a whole string (the body between the quotes). -/
def escStr (s : String) : Bytes := (s.data.map escChar).flatten

/-- Value of one hexadecimal digit character. -/
def hexVal (c : Char) : Option Nat :=
  if 48 ≤ c.toNat && c.toNat ≤ 57 then some (c.toNat - 48)
  else if 97 ≤ c.toNat && c.toNat ≤ 102 then some (c.toNat - 87)
  else if 65 ≤ c.toNat && c.toNat ≤ 70 then some (c.toNat - 55)
  else none

/-- Decode a JSON string body (the opening quote already consumed), returning
the decoded characters and the input after the closing quote.  Mirrors the
`encoding/json` unquoter: two-character escapes, `\uXXXX` escapes, and a hard
error on raw control characters or malformed escapes.  (Go combines surrogate
pairs from consecutive `\u` escapes; the encoder embedded here never emits
surrogates, so that path is not modelled.) -/
def parseStringBody : Bytes → Option (List Char × Bytes)
  | [] => none
  | c :: rest =>
    if c = '"' then some ([], rest)
    else if c = '\\' then
      match rest with
      | [] => none
      | e :: rest2 =>
        if e = '"' then (parseStringBody rest2).map (fun p => ('"' :: p.1, p.2))
        else if e = '\\' then (parseStringBody rest2).map (fun p => ('\\' :: p.1, p.2))
        else if e = '/' then (parseStringBody rest2).map (fun p => ('/' :: p.1, p.2))
        else if e = 'b' then (parseStringBody rest2).map (fun p => (Char.ofNat 8 :: p.1, p.2))
        else if e = 'f' then (parseStringBody rest2).map (fun p => (Char.ofNat 12 :: p.1, p.2))
        else if e = 'n' then (parseStringBody rest2).map (fun p => ('\n' :: p.1, p.2))
        else if e = 'r' then (parseStringBody rest2).map (fun p => ('\r' :: p.1, p.2))
        else if e = 't' then (parseStringBody rest2).map (fun p => ('\t' :: p.1, p.2))
        else if e = 'u' then
          match rest2 with
          | h1 :: h2 :: h3 :: h4 :: rest3 =>
            match hexVal h1, hexVal h2, hexVal h3, hexVal h4 with
            | some a, some b, some x, some d =>
              (parseStringBody rest3).map
                (fun p => (Char.ofNat (a * 4096 + b * 256 + x * 16 + d) :: p.1, p.2))
            | _, _, _, _ => none
          | _ => none
        else none
    else if c.toNat < 32 then none
    else (parseStringBody rest).map (fun p => (c :: p.1, p.2))

theorem hexVal_hexDigitChar (m : Nat) (h : m < 16) : hexVal (hexDigitChar m) = some m := by
  interval_cases m <;> rfl

theorem hex4_reassemble (n : Nat) (h : n < 65536) :
    n / 4096 % 16 * 4096 + n / 256 % 16 * 256 + n / 16 % 16 * 16 + n % 16 = n := by
  omega

/-- Stepping lemma: decoding consumes one escaped character and continues. -/
theorem parseStringBody_escChar (c : Char) (rest : Bytes) :
    parseStringBody (escChar c ++ rest) =
      (parseStringBody rest).map (fun p => (c :: p.1, p.2)) := by
  by_cases h1 : c = '"'
  · subst h1
    have h : escChar '"' ++ rest = '\\' :: '"' :: rest := rfl
    rw [h]
    conv_lhs => rw [parseStringBody.eq_def]
    simp
  by_cases h2 : c = '\\'
  · subst h2
    have h : escChar '\\' ++ rest = '\\' :: '\\' :: rest := rfl
    rw [h]
    conv_lhs => rw [parseStringBody.eq_def]
    simp
  by_cases h3 : c = '\n'
  · subst h3
    have h : escChar '\n' ++ rest = '\\' :: 'n' :: rest := rfl
    rw [h]
    conv_lhs => rw [parseStringBody.eq_def]
    simp
  by_cases h4 : c = '\r'
  · subst h4
    have h : escChar '\r' ++ rest = '\\' :: 'r' :: rest := rfl
    rw [h]
    conv_lhs => rw [parseStringBody.eq_def]
    simp
  by_cases h5 : c = '\t'
  · subst h5
    have h : escChar '\t' ++ rest = '\\' :: 't' :: rest := rfl
    rw [h]
    conv_lhs => rw [parseStringBody.eq_def]
    simp
  by_cases h6 : c.toNat < 32 || c = '<' || c = '>' || c = '&' ||
      c.toNat = 8232 || c.toNat = 8233
  · have hesc : escChar c = '\\' :: 'u' :: hex4 c.toNat := by
      rw [escChar, if_neg h1, if_neg h2, if_neg h3, if_neg h4, if_neg h5, if_pos h6]
    have hv : c.toNat < 65536 := by
      simp only [Bool.or_eq_true, decide_eq_true_eq] at h6
      rcases h6 with ((((h | h) | h) | h) | h) | h
      · omega
      · subst h; decide
      · subst h; decide
      · subst h; decide
      · omega
      · omega
    rw [hesc]
    have h : ('\\' :: 'u' :: hex4 c.toNat) ++ rest =
        '\\' :: 'u' :: (hexDigitChar (c.toNat / 4096 % 16) :: hexDigitChar (c.toNat / 256 % 16) ::
          hexDigitChar (c.toNat / 16 % 16) :: hexDigitChar (c.toNat % 16) :: rest) := by
      simp [hex4]
    rw [h]
    conv_lhs => rw [parseStringBody.eq_def]
    simp only [reduceIte, Char.reduceEq]
    rw [hexVal_hexDigitChar _ (Nat.mod_lt _ (by omega)),
        hexVal_hexDigitChar _ (Nat.mod_lt _ (by omega)),
        hexVal_hexDigitChar _ (Nat.mod_lt _ (by omega)),
        hexVal_hexDigitChar _ (Nat.mod_lt _ (by omega))]
    simp only [hex4_reassemble _ hv, Char.ofNat_toNat]
  · have hesc : escChar c = [c] := by
      rw [escChar, if_neg h1, if_neg h2, if_neg h3, if_neg h4, if_neg h5, if_neg h6]
    have h32 : ¬ c.toNat < 32 := by
      intro hc
      simp [hc] at h6
    rw [hesc, List.singleton_append]
    conv_lhs => rw [parseStringBody.eq_def]
    simp only [if_neg h1, if_neg h2, if_neg h32, if_false]

/-- Round-trip: decoding the escaped body of `s` (followed by the closing
quote) yields `s` and the remaining input. -/
theorem parseStringBody_escStr (s : List Char) (rest : Bytes) :
    parseStringBody ((s.map escChar).flatten ++ '"' :: rest) = some (s, rest) := by
  induction s with
  | nil =>
    show parseStringBody ('"' :: rest) = some ([], rest)
    conv_lhs => rw [parseStringBody.eq_def]
    simp
  | cons c cs ih =>
    simp only [List.map_cons, List.flatten_cons, List.append_assoc]
    rw [parseStringBody_escChar, ih]
    rfl

/-- Scan a JSON string body (opening quote already consumed), producing the
compacted body (closing quote excluded) and the rest of the input.  Mirrors
what `json.Compact` with HTML escaping does inside string literals: escape
sequences are validated and copied verbatim, raw control characters are
rejected, and the HTML-sensitive runes are rewritten to `\u`-escapes. -/
def scanStrBody : Bytes → Option (Bytes × Bytes)
  | [] => none
  | c :: rest =>
    if c = '"' then some ([], rest)
    else if c = '\\' then
      match rest with
      | [] => none
      | e :: rest2 =>
        if e = '"' || e = '\\' || e = '/' || e = 'b' || e = 'f' || e = 'n' || e = 'r' || e = 't' then
          (scanStrBody rest2).map (fun p => ('\\' :: e :: p.1, p.2))
        else if e = 'u' then
          match rest2 with
          | h1 :: h2 :: h3 :: h4 :: rest3 =>
            if (hexVal h1).isSome && (hexVal h2).isSome && (hexVal h3).isSome &&
                (hexVal h4).isSome then
              (scanStrBody rest3).map (fun p => ('\\' :: 'u' :: h1 :: h2 :: h3 :: h4 :: p.1, p.2))
            else none
          | _ => none
        else none
    else if c.toNat < 32 then none
    else if c = '<' || c = '>' || c = '&' || c.toNat = 8232 || c.toNat = 8233 then
      (scanStrBody rest).map (fun p => ('\\' :: 'u' :: hex4 c.toNat ++ p.1, p.2))
    else (scanStrBody rest).map (fun p => (c :: p.1, p.2))

/-- Integer part of a JSON number: `0`, or a nonzero digit followed by more
digits. -/
def scanIntPart : Bytes → Option (Bytes × Bytes)
  | [] => none
  | c :: r =>
    if c = '0' then some (['0'], r)
    else if isDigit c then some (c :: r.takeWhile isDigit, r.dropWhile isDigit)
    else none

/-- Optional fractional part: `.` followed by one or more digits. -/
def scanFrac (s : Bytes) : Option (Bytes × Bytes) :=
  match s with
  | [] => some ([], [])
  | c :: r =>
    if c = '.' then
      let ds := r.takeWhile isDigit
      if ds.isEmpty then none else some ('.' :: ds, r.dropWhile isDigit)
    else some ([], c :: r)

/-- Sign and digits of an exponent (`c` is the `e`/`E` that introduced it). -/
def scanExpTail (c : Char) : Bytes → Option (Bytes × Bytes)
  | [] => none
  | sgn :: r2 =>
    if sgn = '+' || sgn = '-' then
      let ds := r2.takeWhile isDigit
      if ds.isEmpty then none else some (c :: sgn :: ds, r2.dropWhile isDigit)
    else
      let ds := (sgn :: r2).takeWhile isDigit
      if ds.isEmpty then none else some (c :: ds, (sgn :: r2).dropWhile isDigit)

/-- Optional exponent part: `e`/`E`, optional sign, one or more digits. -/
def scanExp : Bytes → Option (Bytes × Bytes)
  | [] => some ([], [])
  | c :: r =>
    if c = 'e' || c = 'E' then scanExpTail c r
    else some ([], c :: r)

/-- Unsigned part of a JSON number: integer part, optional fraction,
optional exponent, copied verbatim. -/
def scanNumBody (s : Bytes) : Option (Bytes × Bytes) := do
  let (i, s1) ← scanIntPart s
  let (f, s2) ← scanFrac s1
  let (e, s3) ← scanExp s2
  some (i ++ f ++ e, s3)

/-- Scan a JSON number (Go `encoding/json` grammar), copied verbatim. -/
def scanNum (s : Bytes) : Option (Bytes × Bytes) :=
  match s with
  | [] => scanNumBody []
  | c :: r =>
    if c = '-' then (scanNumBody r).map (fun p => ('-' :: p.1, p.2))
    else scanNumBody (c :: r)

/-- Mode tag for the JSON scanner: a whole value, the elements of an array
(after `[`), or the members of an object (after the opening brace). -/
inductive ScanMode where
  | val : ScanMode
  | elems : ScanMode
  | fields : ScanMode
deriving DecidableEq

/-- One-pass JSON validator/compactor, the behaviour `json.Marshal` applies
to a `json.RawMessage` (`compact` with HTML escaping).  Returns the compacted
bytes of one value and the unconsumed input.  `fuel` only bounds recursion
depth (it is a Lean artifact; any fuel above the input length is enough). -/
def scan : Nat → ScanMode → Bytes → Option (Bytes × Bytes)
  | 0, _, _ => none
  | _+1, .val, [] => none
  | fuel+1, .val, c :: rest =>
    if c = 'n' then
      if rest.take 3 = ['u', 'l', 'l'] then some (['n', 'u', 'l', 'l'], rest.drop 3) else none
    else if c = 't' then
      if rest.take 3 = ['r', 'u', 'e'] then some (['t', 'r', 'u', 'e'], rest.drop 3) else none
    else if c = 'f' then
      if rest.take 4 = ['a', 'l', 's', 'e'] then
        some (['f', 'a', 'l', 's', 'e'], rest.drop 4)
      else none
    else if c = '"' then
      (scanStrBody rest).map (fun p => ('"' :: p.1 ++ ['"'], p.2))
    else if c = '-' || isDigit c then scanNum (c :: rest)
    else if c = '[' then
      match skipWS rest with
      | [] => none
      | d :: r2 =>
        if d = ']' then some (['[', ']'], r2)
        else (scan fuel .elems (d :: r2)).map (fun p => ('[' :: p.1, p.2))
    else if c = '{' then
      match skipWS rest with
      | [] => none
      | d :: r2 =>
        if d = '}' then some (['{', '}'], r2)
        else (scan fuel .fields (d :: r2)).map (fun p => ('{' :: p.1, p.2))
    else none
  | fuel+1, .elems, s => do
    let (v, r) ← scan fuel .val s
    match skipWS r with
    | [] => none
    | d :: r2 =>
      if d = ',' then (scan fuel .elems (skipWS r2)).map (fun p => (v ++ ',' :: p.1, p.2))
      else if d = ']' then some (v ++ [']'], r2)
      else none
  | fuel+1, .fields, s =>
    match s with
    | [] => none
    | c :: r =>
      if c = '"' then do
        let (k, r1) ← scanStrBody r
        match skipWS r1 with
        | [] => none
        | d :: r3 =>
          if d = ':' then do
            let (v, r4) ← scan fuel .val (skipWS r3)
            match skipWS r4 with
            | [] => none
            | e :: r6 =>
              if e = ',' then
                (scan fuel .fields (skipWS r6)).map
                  (fun p => ('"' :: k ++ '"' :: ':' :: v ++ ',' :: p.1, p.2))
              else if e = '}' then some ('"' :: k ++ '"' :: ':' :: v ++ ['}'], r6)
              else none
          else none
      else none

/-- The behaviour of `json.Marshal` on the `json.RawMessage` payload field:
the payload must be one valid JSON value (up to surrounding whitespace); it is
emitted compacted, with `<`, `>`, `&`, U+2028, U+2029 escaped.  Invalid
payloads make the whole `json.Marshal` (and hence `RecordMessage`) fail. -/
def marshalPayload (p : Bytes) : Option Bytes :=
  let s := skipWS p
  match scan (s.length + 1) .val s with
  | some (c, rest) => if (skipWS rest).isEmpty then some c else none
  | none => none

/- Abstract syntax of JSON values, used to describe the payloads on which
`json.Marshal` acts as the identity (valid JSON already in compact, escaped
form).  `jnum` carries the literal bytes of a number token; `jstr` carries
the decoded characters of a string. -/
mutual
inductive JVal where
  | jnull : JVal
  | jbool : Bool → JVal
  | jnum : Bytes → JVal
  | jstr : List Char → JVal
  | jarr : JList → JVal
  | jobj : JFields → JVal
deriving DecidableEq
inductive JList where
  | jnil : JList
  | jcons : JVal → JList → JList
deriving DecidableEq
inductive JFields where
  | fnil : JFields
  | fcons : List Char → JVal → JFields → JFields
deriving DecidableEq
end

/- Canonical compact rendering of a JSON value (with every string escaped by
`escChar`, i.e. exactly the form the Go encoder emits). -/
mutual
def renderV : JVal → Bytes
  | .jnull => ['n', 'u', 'l', 'l']
  | .jbool true => ['t', 'r', 'u', 'e']
  | .jbool false => ['f', 'a', 'l', 's', 'e']
  | .jnum s => s
  | .jstr s => '"' :: (s.map escChar).flatten ++ ['"']
  | .jarr l => '[' :: renderL l
  | .jobj f => '{' :: renderF f
def renderL : JList → Bytes
  | .jnil => [']']
  | .jcons v .jnil => renderV v ++ [']']
  | .jcons v (.jcons w l) => renderV v ++ ',' :: renderL (.jcons w l)
def renderF : JFields → Bytes
  | .fnil => ['}']
  | .fcons k v .fnil => '"' :: (k.map escChar).flatten ++ '"' :: ':' :: renderV v ++ ['}']
  | .fcons k v (.fcons k2 v2 f) =>
    '"' :: (k.map escChar).flatten ++ '"' :: ':' :: renderV v ++ ',' :: renderF (.fcons k2 v2 f)
end

/-- A number token is well-formed when the number scanner accepts it in
full and copies it verbatim. -/
def numOK (s : Bytes) : Bool := scanNum s == some (s, [])

/- Well-formedness of a JSON value: every number literal in it is a valid
number token. -/
mutual
def wfV : JVal → Bool
  | .jnull => true
  | .jbool _ => true
  | .jnum s => numOK s
  | .jstr _ => true
  | .jarr l => wfL l
  | .jobj f => wfF f
def wfL : JList → Bool
  | .jnil => true
  | .jcons v l => wfV v && wfL l
def wfF : JFields → Bool
  | .fnil => true
  | .fcons _ v f => wfV v && wfF f
end

/- Fuel needed by `scan` to consume the rendering of a value (each nesting
level of the scanner consumes one unit). -/
mutual
def fuelV : JVal → Nat
  | .jnull => 1
  | .jbool _ => 1
  | .jnum _ => 1
  | .jstr _ => 1
  | .jarr l => fuelL l + 1
  | .jobj f => fuelF f + 1
def fuelL : JList → Nat
  | .jnil => 1
  | .jcons v l => max (fuelV v) (fuelL l) + 1
def fuelF : JFields → Nat
  | .fnil => 1
  | .fcons _ v f => max (fuelV v) (fuelF f) + 1
end

/-- Characters that may legally follow a complete JSON value in the places
where the round-trip lemmas are applied (end of input, or a separator). -/
def stopOK : Bytes → Bool
  | [] => true
  | c :: _ => c == ',' || c == ']' || c == '}'

/-- Characters a rendered JSON value can start with. -/
def headOK (c : Char) : Bool :=
  c == '"' || c == '-' || isDigit c || c == 'n' || c == 't' || c == 'f' || c == '[' || c == '{'

theorem scanStrBody_escChar (c : Char) (X : Bytes) :
    scanStrBody (escChar c ++ X) =
      (scanStrBody X).map (fun p => (escChar c ++ p.1, p.2)) := by
  by_cases h1 : c = '"'
  · subst h1
    have h : escChar '"' ++ X = '\\' :: '"' :: X := rfl
    rw [h]
    conv_lhs => rw [scanStrBody.eq_def]
    simp [escChar]
  by_cases h2 : c = '\\'
  · subst h2
    have h : escChar '\\' ++ X = '\\' :: '\\' :: X := rfl
    rw [h]
    conv_lhs => rw [scanStrBody.eq_def]
    simp [escChar]
  by_cases h3 : c = '\n'
  · subst h3
    have h : escChar '\n' ++ X = '\\' :: 'n' :: X := rfl
    rw [h]
    conv_lhs => rw [scanStrBody.eq_def]
    simp [escChar]
  by_cases h4 : c = '\r'
  · subst h4
    have h : escChar '\r' ++ X = '\\' :: 'r' :: X := rfl
    rw [h]
    conv_lhs => rw [scanStrBody.eq_def]
    simp [escChar]
  by_cases h5 : c = '\t'
  · subst h5
    have h : escChar '\t' ++ X = '\\' :: 't' :: X := rfl
    rw [h]
    conv_lhs => rw [scanStrBody.eq_def]
    simp [escChar]
  by_cases h6 : c.toNat < 32 || c = '<' || c = '>' || c = '&' ||
      c.toNat = 8232 || c.toNat = 8233
  · have hesc : escChar c = '\\' :: 'u' :: hex4 c.toNat := by
      rw [escChar, if_neg h1, if_neg h2, if_neg h3, if_neg h4, if_neg h5, if_pos h6]
    rw [hesc]
    have h : ('\\' :: 'u' :: hex4 c.toNat) ++ X =
        '\\' :: 'u' :: (hexDigitChar (c.toNat / 4096 % 16) :: hexDigitChar (c.toNat / 256 % 16) ::
          hexDigitChar (c.toNat / 16 % 16) :: hexDigitChar (c.toNat % 16) :: X) := by
      simp [hex4]
    rw [h]
    conv_lhs => rw [scanStrBody.eq_def]
    simp only [reduceIte, Char.reduceEq, Bool.or_self, Bool.or_false, Bool.false_or]
    rw [hexVal_hexDigitChar _ (Nat.mod_lt _ (by omega)),
        hexVal_hexDigitChar _ (Nat.mod_lt _ (by omega)),
        hexVal_hexDigitChar _ (Nat.mod_lt _ (by omega)),
        hexVal_hexDigitChar _ (Nat.mod_lt _ (by omega))]
    simp [hex4]
  · have hesc : escChar c = [c] := by
      rw [escChar, if_neg h1, if_neg h2, if_neg h3, if_neg h4, if_neg h5, if_neg h6]
    have h32 : ¬ c.toNat < 32 := by
      intro hc
      simp [hc] at h6
    have hhtml : ¬ (c = '<' || c = '>' || c = '&' || c.toNat = 8232 || c.toNat = 8233) = true := by
      intro hc
      rcases Bool.or_eq_true_iff.mp hc with h | h
      · rcases Bool.or_eq_true_iff.mp h with h | h
        · rcases Bool.or_eq_true_iff.mp h with h | h
          · rcases Bool.or_eq_true_iff.mp h with h | h
            · simp [h] at h6
            · simp [h] at h6
          · simp [h] at h6
        · simp [h] at h6
      · simp [h] at h6
    rw [hesc, List.singleton_append]
    conv_lhs => rw [scanStrBody.eq_def]
    simp only [if_neg h1, if_neg h2, if_neg h32, if_false, if_neg hhtml]
    simp

/-- The compactor leaves an already-escaped string body unchanged. -/
theorem scanStrBody_escStr (s : List Char) (X : Bytes) :
    scanStrBody ((s.map escChar).flatten ++ '"' :: X) = some ((s.map escChar).flatten, X) := by
  induction s with
  | nil =>
    show scanStrBody ('"' :: X) = some ([], X)
    conv_lhs => rw [scanStrBody.eq_def]
    simp
  | cons c cs ih =>
    simp only [List.map_cons, List.flatten_cons, List.append_assoc]
    rw [scanStrBody_escChar, ih]
    rfl

/-- The input after a complete value in the round-trip lemmas starts with a
separator, which can extend neither a digit run nor a number token. -/
theorem stopOK_cases (rest : Bytes) (h : stopOK rest = true) :
    rest = [] ∨ ∃ c r, rest = c :: r ∧ isDigit c = false ∧ c ≠ '.' ∧ c ≠ 'e' ∧ c ≠ 'E' ∧
      isWS c = false ∧ c ≠ '-' := by
  cases rest with
  | nil => exact Or.inl rfl
  | cons c r =>
    right
    refine ⟨c, r, rfl, ?_⟩
    simp only [stopOK, Bool.or_eq_true, beq_iff_eq] at h
    rcases h with (h | h) | h <;> subst h <;> exact ⟨rfl, by decide, by decide, by decide, rfl, by decide⟩

theorem digits_span_append (xr rest : Bytes)
    (hr : rest = [] ∨ ∃ c r, rest = c :: r ∧ isDigit c = false) :
    (xr ++ rest).takeWhile isDigit = xr.takeWhile isDigit ∧
      (xr ++ rest).dropWhile isDigit = xr.dropWhile isDigit ++ rest := by
  induction xr with
  | nil =>
    rcases hr with rfl | ⟨c, r, rfl, hc⟩
    · simp
    · simp [List.takeWhile, List.dropWhile, hc]
  | cons c xs ih =>
    by_cases hc : isDigit c
    · simp only [List.cons_append, List.takeWhile_cons, List.dropWhile_cons, hc, if_true, ih.1,
        ih.2, and_self]
    · simp [List.takeWhile_cons, List.dropWhile_cons, hc]

theorem scanIntPart_ext (x rest : Bytes) (i x1 : Bytes)
    (h : scanIntPart x = some (i, x1))
    (hr : rest = [] ∨ ∃ c r, rest = c :: r ∧ isDigit c = false) :
    scanIntPart (x ++ rest) = some (i, x1 ++ rest) := by
  cases x with
  | nil => simp [scanIntPart] at h
  | cons c xr =>
    rw [scanIntPart] at h
    rw [List.cons_append, scanIntPart]
    by_cases h0 : c = '0'
    · rw [if_pos h0] at h ⊢
      cases h
      rfl
    · rw [if_neg h0] at h ⊢
      by_cases hd : isDigit c
      · rw [if_pos hd] at h ⊢
        cases h
        rw [(digits_span_append xr rest hr).1, (digits_span_append xr rest hr).2]
      · rw [if_neg hd] at h
        cases h

theorem scanFrac_ext (x rest : Bytes) (f x1 : Bytes)
    (h : scanFrac x = some (f, x1))
    (hr : rest = [] ∨ ∃ c r, rest = c :: r ∧ isDigit c = false ∧ c ≠ '.') :
    scanFrac (x ++ rest) = some (f, x1 ++ rest) := by
  have hr' : rest = [] ∨ ∃ c r, rest = c :: r ∧ isDigit c = false := by
    rcases hr with h1 | ⟨c, r, h1, h2, _⟩
    · exact Or.inl h1
    · exact Or.inr ⟨c, r, h1, h2⟩
  cases x with
  | nil =>
    rw [scanFrac] at h
    cases h
    rcases hr with rfl | ⟨c, r, rfl, _, hdot⟩
    · rfl
    · rw [List.nil_append, scanFrac, if_neg hdot]
  | cons c xr =>
    rw [scanFrac] at h
    rw [List.cons_append, scanFrac]
    by_cases hdot : c = '.'
    · rw [if_pos hdot] at h ⊢
      simp only at h ⊢
      by_cases hds : (xr.takeWhile isDigit).isEmpty
      · rw [if_pos hds] at h
        cases h
      · rw [if_neg hds] at h
        cases h
        rw [(digits_span_append xr rest hr').1, (digits_span_append xr rest hr').2,
          if_neg hds]
    · rw [if_neg hdot] at h ⊢
      cases h
      rfl

theorem scanExp_ext (x rest : Bytes) (e x1 : Bytes)
    (h : scanExp x = some (e, x1))
    (hr : rest = [] ∨ ∃ c r, rest = c :: r ∧ isDigit c = false ∧ c ≠ 'e' ∧ c ≠ 'E') :
    scanExp (x ++ rest) = some (e, x1 ++ rest) := by
  have hr' : rest = [] ∨ ∃ c r, rest = c :: r ∧ isDigit c = false := by
    rcases hr with h1 | ⟨c, r, h1, h2, _⟩
    · exact Or.inl h1
    · exact Or.inr ⟨c, r, h1, h2⟩
  cases x with
  | nil =>
    rw [scanExp] at h
    cases h
    rcases hr with rfl | ⟨c, r, rfl, _, he, hE⟩
    · rfl
    · rw [List.nil_append, scanExp]
      have : (c = 'e' || c = 'E') = false := by
        simp [he, hE]
      rw [this]
      simp
  | cons c xr =>
    rw [scanExp] at h
    rw [List.cons_append, scanExp]
    by_cases hce : (c = 'e' || c = 'E') = true
    · rw [if_pos hce] at h ⊢
      cases xr with
      | nil => rw [scanExpTail] at h; cases h
      | cons sgn r2 =>
        rw [List.cons_append]
        simp only [scanExpTail] at h ⊢
        by_cases hsgn : (sgn = '+' || sgn = '-') = true
        · rw [if_pos hsgn] at h ⊢
          by_cases hds : (r2.takeWhile isDigit).isEmpty
          · rw [if_pos hds] at h
            cases h
          · rw [if_neg hds] at h
            cases h
            rw [(digits_span_append r2 rest hr').1, (digits_span_append r2 rest hr').2,
              if_neg hds]
        · rw [if_neg hsgn] at h ⊢
          by_cases hds : ((sgn :: r2).takeWhile isDigit).isEmpty
          · rw [if_pos hds] at h
            cases h
          · rw [if_neg hds] at h
            cases h
            have hsp := digits_span_append (sgn :: r2) rest hr'
            rw [List.cons_append] at hsp
            rw [hsp.1, hsp.2, if_neg hds]
    · rw [if_neg hce] at h ⊢
      cases h
      rfl

theorem scanNumBody_ext (x rest : Bytes) (v : Bytes)
    (h : scanNumBody x = some (v, []))
    (hstop : stopOK rest = true) :
    scanNumBody (x ++ rest) = some (v, rest) := by
  have hr := stopOK_cases rest hstop
  rw [scanNumBody] at h
  cases hip : scanIntPart x with
  | none => rw [hip] at h; cases h
  | some p =>
    obtain ⟨i, s1⟩ := p
    rw [hip] at h
    simp only [Option.bind_eq_bind, Option.some_bind] at h
    cases hf : scanFrac s1 with
    | none => rw [hf] at h; cases h
    | some q =>
      obtain ⟨f, s2⟩ := q
      rw [hf] at h
      simp only [Option.some_bind] at h
      cases he : scanExp s2 with
      | none => rw [he] at h; cases h
      | some w =>
        obtain ⟨e, s3⟩ := w
        rw [he] at h
        simp only [Option.some_bind, Option.some.injEq, Prod.mk.injEq] at h
        obtain ⟨hv, hs3⟩ := h
        subst hs3
        have hip' : scanIntPart (x ++ rest) = some (i, s1 ++ rest) := by
          apply scanIntPart_ext x rest i s1 hip
          rcases hr with h1 | ⟨c, r, h1, h2, _⟩
          · exact Or.inl h1
          · exact Or.inr ⟨c, r, h1, h2⟩
        have hf' : scanFrac (s1 ++ rest) = some (f, s2 ++ rest) := by
          apply scanFrac_ext s1 rest f s2 hf
          rcases hr with h1 | ⟨c, r, h1, h2, h3, _⟩
          · exact Or.inl h1
          · exact Or.inr ⟨c, r, h1, h2, h3⟩
        have he' : scanExp (s2 ++ rest) = some (e, [] ++ rest) := by
          apply scanExp_ext s2 rest e [] he
          rcases hr with h1 | ⟨c, r, h1, h2, _, h4, h5, _⟩
          · exact Or.inl h1
          · exact Or.inr ⟨c, r, h1, h2, h4, h5⟩
        rw [scanNumBody, hip']
        simp only [Option.bind_eq_bind, Option.some_bind]
        rw [hf']
        simp only [Option.some_bind]
        rw [he']
        simp only [Option.some_bind, List.nil_append]
        rw [hv]

/-- Extending a complete number token by a separator does not change what the
number scanner consumes. -/
theorem scanNum_ext (x rest : Bytes) (v : Bytes)
    (h : scanNum x = some (v, []))
    (hstop : stopOK rest = true) :
    scanNum (x ++ rest) = some (v, rest) := by
  cases x with
  | nil =>
    have hnone : scanNum ([] : Bytes) = none := rfl
    rw [hnone] at h
    cases h
  | cons c xr =>
    rw [scanNum] at h
    rw [List.cons_append, scanNum]
    by_cases hc : c = '-'
    · rw [if_pos hc] at h ⊢
      cases hb : scanNumBody xr with
      | none => rw [hb] at h; cases h
      | some p =>
        obtain ⟨w, s3⟩ := p
        rw [hb] at h
        simp only [Option.map_some', Option.map_some, Option.some.injEq, Prod.mk.injEq] at h
        obtain ⟨hv, hs3⟩ := h
        subst hs3
        rw [scanNumBody_ext xr rest w hb hstop]
        simp [hv]
    · rw [if_neg hc] at h ⊢
      rw [show c :: (xr ++ rest) = (c :: xr) ++ rest from rfl]
      exact scanNumBody_ext (c :: xr) rest v h hstop

theorem scanNum_shape (s : Bytes) (p : Bytes × Bytes) (h : scanNum s = some p) :
    ∃ c r, s = c :: r ∧ (c = '-' ∨ isDigit c = true) := by
  cases s with
  | nil =>
    have hnone : scanNum ([] : Bytes) = none := rfl
    rw [hnone] at h
    cases h
  | cons c r =>
    refine ⟨c, r, rfl, ?_⟩
    by_cases hc : c = '-'
    · exact Or.inl hc
    · right
      rw [scanNum, if_neg hc, scanNumBody] at h
      cases hip : scanIntPart (c :: r) with
      | none =>
        rw [hip] at h
        simp at h
      | some q =>
        rw [scanIntPart] at hip
        by_cases h0 : c = '0'
        · subst h0
          decide
        · rw [if_neg h0] at hip
          by_cases hd : isDigit c
          · exact hd
          · rw [if_neg hd] at hip
            cases hip

theorem scan_val_null (fuel : Nat) (X : Bytes) :
    scan (fuel+1) .val ('n' :: X) =
      (if X.take 3 = ['u', 'l', 'l'] then some (['n', 'u', 'l', 'l'], X.drop 3) else none) := by
  rw [scan]
  simp

theorem scan_val_true (fuel : Nat) (X : Bytes) :
    scan (fuel+1) .val ('t' :: X) =
      (if X.take 3 = ['r', 'u', 'e'] then some (['t', 'r', 'u', 'e'], X.drop 3) else none) := by
  rw [scan]
  simp

theorem scan_val_false (fuel : Nat) (X : Bytes) :
    scan (fuel+1) .val ('f' :: X) =
      (if X.take 4 = ['a', 'l', 's', 'e'] then some (['f', 'a', 'l', 's', 'e'], X.drop 4)
       else none) := by
  rw [scan]
  simp

theorem scan_val_str (fuel : Nat) (X : Bytes) :
    scan (fuel+1) .val ('"' :: X) =
      (scanStrBody X).map (fun p => ('"' :: p.1 ++ ['"'], p.2)) := by
  rw [scan]
  simp

theorem scan_val_num (fuel : Nat) (c : Char) (X : Bytes)
    (hc : c = '-' ∨ isDigit c = true) :
    scan (fuel+1) .val (c :: X) = scanNum (c :: X) := by
  rw [scan]
  rcases hc with hc | hc
  · subst hc
    simp [scanNum]
  · have hv : 48 ≤ c.toNat ∧ c.toNat ≤ 57 := by
      simp only [isDigit, Bool.and_eq_true, decide_eq_true_eq] at hc
      exact hc
    have h1 : ¬ c = 'n' := by intro hEq; subst hEq; revert hv; decide
    have h2 : ¬ c = 't' := by intro hEq; subst hEq; revert hv; decide
    have h3 : ¬ c = 'f' := by intro hEq; subst hEq; revert hv; decide
    have h4 : ¬ c = '"' := by intro hEq; subst hEq; revert hv; decide
    rw [if_neg h1, if_neg h2, if_neg h3, if_neg h4, if_pos (by simp [hc])]

theorem scan_val_arr_close (fuel : Nat) (X Y : Bytes) (h : skipWS X = ']' :: Y) :
    scan (fuel+1) .val ('[' :: X) = some (['[', ']'], Y) := by
  rw [scan, h]
  simp [isDigit]

theorem scan_val_arr_elems (fuel : Nat) (X Y : Bytes) (d : Char)
    (h : skipWS X = d :: Y) (hd : d ≠ ']') :
    scan (fuel+1) .val ('[' :: X) =
      (scan fuel .elems (d :: Y)).map (fun p => ('[' :: p.1, p.2)) := by
  rw [scan, h]
  simp [hd, isDigit]

theorem scan_val_obj_close (fuel : Nat) (X Y : Bytes) (h : skipWS X = '}' :: Y) :
    scan (fuel+1) .val ('{' :: X) = some (['{', '}'], Y) := by
  rw [scan, h]
  simp [isDigit]

theorem scan_val_obj_fields (fuel : Nat) (X Y : Bytes) (d : Char)
    (h : skipWS X = d :: Y) (hd : d ≠ '}') :
    scan (fuel+1) .val ('{' :: X) =
      (scan fuel .fields (d :: Y)).map (fun p => ('{' :: p.1, p.2)) := by
  rw [scan, h]
  simp [hd, isDigit]

theorem headOK_props (c : Char) (h : headOK c = true) :
    isWS c = false ∧ c ≠ ']' ∧ c ≠ '}' ∧ c ≠ ',' := by
  simp only [headOK, Bool.or_eq_true, beq_iff_eq] at h
  rcases h with ((((((h | h) | h) | h) | h) | h) | h) | h
  · subst h; exact ⟨rfl, by decide, by decide, by decide⟩
  · subst h; exact ⟨rfl, by decide, by decide, by decide⟩
  · simp only [isDigit, Bool.and_eq_true, decide_eq_true_eq] at h
    have h1 : ¬ c = ']' := by intro hEq; subst hEq; revert h; decide
    have h2 : ¬ c = '}' := by intro hEq; subst hEq; revert h; decide
    have h3 : ¬ c = ',' := by intro hEq; subst hEq; revert h; decide
    have hw : isWS c = false := by
      by_contra hw
      rw [Bool.not_eq_false] at hw
      simp only [isWS, Bool.or_eq_true, beq_iff_eq] at hw
      rcases hw with ((hw | hw) | hw) | hw <;> (subst hw; revert h; decide)
    exact ⟨hw, h1, h2, h3⟩
  · subst h; exact ⟨rfl, by decide, by decide, by decide⟩
  · subst h; exact ⟨rfl, by decide, by decide, by decide⟩
  · subst h; exact ⟨rfl, by decide, by decide, by decide⟩
  · subst h; exact ⟨rfl, by decide, by decide, by decide⟩
  · subst h; exact ⟨rfl, by decide, by decide, by decide⟩

theorem skipWS_cons_not_ws (c : Char) (X : Bytes) (h : isWS c = false) :
    skipWS (c :: X) = c :: X := by
  simp [skipWS, List.dropWhile_cons, h]

/-- The first character of the rendering of a well-formed value. -/
theorem renderV_head (v : JVal) (hwf : wfV v = true) :
    ∃ c r, renderV v = c :: r ∧ headOK c = true := by
  cases v with
  | jnull => exact ⟨'n', _, rfl, by decide⟩
  | jbool b =>
    cases b with
    | true => exact ⟨'t', _, rfl, by decide⟩
    | false => exact ⟨'f', _, rfl, by decide⟩
  | jnum s =>
    rw [wfV, numOK] at hwf
    have h : scanNum s = some (s, []) := beq_iff_eq.mp hwf
    obtain ⟨c, r, rfl, hc⟩ := scanNum_shape s _ h
    refine ⟨c, r, rfl, ?_⟩
    rcases hc with hc | hc
    · subst hc; decide
    · simp [headOK, hc]
  | jstr s => exact ⟨'"', _, rfl, by decide⟩
  | jarr l => exact ⟨'[', _, rfl, by decide⟩
  | jobj f => exact ⟨'{', _, rfl, by decide⟩

/-- Definitional unfolding of the scanner in array-elements mode. -/
theorem scan_elems_step (fuel : Nat) (s : Bytes) :
    scan (fuel+1) .elems s = (scan fuel .val s).bind (fun x =>
      match x with
      | (v, r) =>
        match skipWS r with
        | [] => none
        | d :: r2 =>
          if d = ',' then (scan fuel .elems (skipWS r2)).map (fun p => (v ++ ',' :: p.1, p.2))
          else if d = ']' then some (v ++ [']'], r2)
          else none) := rfl

/-- Definitional unfolding of the scanner in object-members mode. -/
theorem scan_fields_step (fuel : Nat) (s : Bytes) :
    scan (fuel+1) .fields s =
      (match s with
      | [] => none
      | c :: r =>
        if c = '"' then
          (scanStrBody r).bind (fun x =>
            match x with
            | (k, r1) =>
              match skipWS r1 with
              | [] => none
              | d :: r3 =>
                if d = ':' then
                  (scan fuel .val (skipWS r3)).bind (fun y =>
                    match y with
                    | (v, r4) =>
                      match skipWS r4 with
                      | [] => none
                      | e :: r6 =>
                        if e = ',' then
                          (scan fuel .fields (skipWS r6)).map
                            (fun p => ('"' :: k ++ '"' :: ':' :: v ++ ',' :: p.1, p.2))
                        else if e = '}' then some ('"' :: k ++ '"' :: ':' :: v ++ ['}'], r6)
                        else none)
                else none)
        else none) := rfl

theorem renderL_cons_shape (v : JVal) (l : JList) (hw : wfV v = true) :
    ∃ c Y, renderL (.jcons v l) = c :: Y ∧ headOK c = true := by
  obtain ⟨c, r, hcr, hh⟩ := renderV_head v hw
  cases l with
  | jnil =>
    refine ⟨c, r ++ [']'], ?_, hh⟩
    show renderV v ++ [']'] = c :: (r ++ [']'])
    rw [hcr]
    rfl
  | jcons w l2 =>
    refine ⟨c, r ++ ',' :: renderL (.jcons w l2), ?_, hh⟩
    show renderV v ++ ',' :: renderL (.jcons w l2) = c :: (r ++ ',' :: renderL (.jcons w l2))
    rw [hcr]
    rfl

theorem renderF_cons_shape (k : List Char) (v : JVal) (f : JFields) :
    ∃ Y, renderF (.fcons k v f) = '"' :: Y := by
  cases f with
  | fnil => exact ⟨_, rfl⟩
  | fcons k2 v2 f2 => exact ⟨_, rfl⟩

/- Core round-trip of the compactor: scanning the canonical rendering of a
well-formed JSON value consumes exactly that rendering and copies it
verbatim.  Proved by mutual recursion over the value. -/
mutual
theorem scanRenderV : ∀ (v : JVal), wfV v = true → ∀ fuel rest, fuelV v ≤ fuel →
    stopOK rest = true → scan fuel .val (renderV v ++ rest) = some (renderV v, rest)
  | .jnull, hwf, fuel, rest, hfuel, hstop => by
    obtain ⟨f, rfl⟩ : ∃ f, fuel = f + 1 := ⟨fuel - 1, by simp [fuelV] at hfuel; omega⟩
    show scan (f + 1) .val ('n' :: ('u' :: 'l' :: 'l' :: rest)) = _
    rw [scan_val_null]
    simp
    rfl
  | .jbool true, hwf, fuel, rest, hfuel, hstop => by
    obtain ⟨f, rfl⟩ : ∃ f, fuel = f + 1 := ⟨fuel - 1, by simp [fuelV] at hfuel; omega⟩
    show scan (f + 1) .val ('t' :: ('r' :: 'u' :: 'e' :: rest)) = _
    rw [scan_val_true]
    simp
    rfl
  | .jbool false, hwf, fuel, rest, hfuel, hstop => by
    obtain ⟨f, rfl⟩ : ∃ f, fuel = f + 1 := ⟨fuel - 1, by simp [fuelV] at hfuel; omega⟩
    show scan (f + 1) .val ('f' :: ('a' :: 'l' :: 's' :: 'e' :: rest)) = _
    rw [scan_val_false]
    simp
    rfl
  | .jnum s, hwf, fuel, rest, hfuel, hstop => by
    obtain ⟨f, rfl⟩ : ∃ f, fuel = f + 1 := ⟨fuel - 1, by simp [fuelV] at hfuel; omega⟩
    rw [wfV, numOK] at hwf
    have h : scanNum s = some (s, []) := beq_iff_eq.mp hwf
    obtain ⟨c, r, rfl, hc⟩ := scanNum_shape s _ h
    show scan (f + 1) .val ((c :: r) ++ rest) = _
    rw [List.cons_append, scan_val_num f c (r ++ rest) hc, ← List.cons_append,
      scanNum_ext _ rest _ h hstop]
    rfl
  | .jstr s, hwf, fuel, rest, hfuel, hstop => by
    obtain ⟨f, rfl⟩ : ∃ f, fuel = f + 1 := ⟨fuel - 1, by simp [fuelV] at hfuel; omega⟩
    show scan (f + 1) .val (('"' :: (s.map escChar).flatten ++ ['"']) ++ rest) = _
    have hshape : ('"' :: (s.map escChar).flatten ++ ['"']) ++ rest =
        '"' :: ((s.map escChar).flatten ++ '"' :: rest) := by
      simp
    rw [hshape, scan_val_str, scanStrBody_escStr]
    simp
    rfl
  | .jarr .jnil, hwf, fuel, rest, hfuel, hstop => by
    obtain ⟨f, rfl⟩ : ∃ f, fuel = f + 1 := ⟨fuel - 1, by simp [fuelV] at hfuel; omega⟩
    show scan (f + 1) .val ('[' :: (']' :: rest)) = _
    rw [scan_val_arr_close f (']' :: rest) rest (skipWS_cons_not_ws _ _ (by decide))]
    rfl
  | .jarr (.jcons v l), hwf, fuel, rest, hfuel, hstop => by
    obtain ⟨f, rfl⟩ : ∃ f, fuel = f + 1 := ⟨fuel - 1, by simp [fuelV] at hfuel; omega⟩
    rw [wfV, wfL, Bool.and_eq_true] at hwf
    obtain ⟨c, Y, hcy, hh⟩ := renderL_cons_shape v l hwf.1
    have hprops := headOK_props c hh
    show scan (f + 1) .val ('[' :: (renderL (.jcons v l) ++ rest)) = _
    rw [hcy, List.cons_append,
      scan_val_arr_elems f _ (Y ++ rest) c (skipWS_cons_not_ws _ _ hprops.1) hprops.2.1,
      ← List.cons_append, ← hcy]
    rw [scanRenderL v l hwf.1 hwf.2 f rest (by rw [fuelV] at hfuel; omega) hstop]
    rfl
  | .jobj .fnil, hwf, fuel, rest, hfuel, hstop => by
    obtain ⟨f, rfl⟩ : ∃ f, fuel = f + 1 := ⟨fuel - 1, by simp [fuelV] at hfuel; omega⟩
    show scan (f + 1) .val ('{' :: ('}' :: rest)) = _
    rw [scan_val_obj_close f ('}' :: rest) rest (skipWS_cons_not_ws _ _ (by decide))]
    rfl
  | .jobj (.fcons k v fs), hwf, fuel, rest, hfuel, hstop => by
    obtain ⟨f, rfl⟩ : ∃ f, fuel = f + 1 := ⟨fuel - 1, by simp [fuelV] at hfuel; omega⟩
    rw [wfV, wfF, Bool.and_eq_true] at hwf
    obtain ⟨Y, hy⟩ := renderF_cons_shape k v fs
    show scan (f + 1) .val ('{' :: (renderF (.fcons k v fs) ++ rest)) = _
    rw [hy, List.cons_append,
      scan_val_obj_fields f _ (Y ++ rest) '"' (skipWS_cons_not_ws _ _ (by decide)) (by decide),
      ← List.cons_append, ← hy]
    rw [scanRenderF k v fs hwf.1 hwf.2 f rest (by rw [fuelV] at hfuel; omega) hstop]
    rfl
termination_by v _ _ _ _ _ => sizeOf v

theorem scanRenderL : ∀ (v : JVal) (l : JList), wfV v = true → wfL l = true →
    ∀ fuel rest, fuelL (.jcons v l) ≤ fuel → stopOK rest = true →
    scan fuel .elems (renderL (.jcons v l) ++ rest) = some (renderL (.jcons v l), rest)
  | v, .jnil, hwv, hwl, fuel, rest, hfuel, hstop => by
    obtain ⟨f, rfl⟩ : ∃ f, fuel = f + 1 := ⟨fuel - 1, by simp [fuelL] at hfuel; omega⟩
    show scan (f + 1) .elems ((renderV v ++ [']']) ++ rest) = _
    have hv := scanRenderV v hwv f (']' :: rest)
      (by rw [fuelL] at hfuel; omega) rfl
    have hshape : (renderV v ++ [']']) ++ rest = renderV v ++ (']' :: rest) := by
      simp
    rw [hshape, scan_elems_step, hv]
    simp only [Option.some_bind]
    rw [skipWS_cons_not_ws _ _ (by decide)]
    simp
    rfl
  | v, .jcons w l2, hwv, hwl, fuel, rest, hfuel, hstop => by
    obtain ⟨f, rfl⟩ : ∃ f, fuel = f + 1 := ⟨fuel - 1, by simp [fuelL] at hfuel; omega⟩
    rw [wfL, Bool.and_eq_true] at hwl
    show scan (f + 1) .elems ((renderV v ++ ',' :: renderL (.jcons w l2)) ++ rest) = _
    have hv := scanRenderV v hwv f (',' :: (renderL (.jcons w l2) ++ rest))
      (by rw [fuelL] at hfuel; omega) rfl
    have hshape : (renderV v ++ ',' :: renderL (.jcons w l2)) ++ rest =
        renderV v ++ (',' :: (renderL (.jcons w l2) ++ rest)) := by
      simp
    rw [hshape, scan_elems_step, hv]
    simp only [Option.some_bind]
    rw [skipWS_cons_not_ws _ _ (by decide)]
    simp only [reduceIte]
    obtain ⟨c, Y, hcy, hh⟩ := renderL_cons_shape w l2 hwl.1
    have hprops := headOK_props c hh
    rw [hcy, List.cons_append, skipWS_cons_not_ws _ _ hprops.1, ← List.cons_append, ← hcy]
    rw [scanRenderL w l2 hwl.1 hwl.2 f rest (by rw [fuelL] at hfuel; omega) hstop]
    simp
    rfl
termination_by v l _ _ _ _ _ _ => sizeOf v + sizeOf l

theorem scanRenderF : ∀ (k : List Char) (v : JVal) (fs : JFields), wfV v = true →
    wfF fs = true → ∀ fuel rest, fuelF (.fcons k v fs) ≤ fuel → stopOK rest = true →
    scan fuel .fields (renderF (.fcons k v fs) ++ rest) = some (renderF (.fcons k v fs), rest)
  | k, v, .fnil, hwv, hwf, fuel, rest, hfuel, hstop => by
    obtain ⟨f, rfl⟩ : ∃ f, fuel = f + 1 := ⟨fuel - 1, by simp [fuelF] at hfuel; omega⟩
    show scan (f + 1) .fields
      (('"' :: (k.map escChar).flatten ++ '"' :: ':' :: renderV v ++ ['}']) ++ rest) = _
    have hshape : ('"' :: (k.map escChar).flatten ++ '"' :: ':' :: renderV v ++ ['}']) ++ rest =
        '"' :: ((k.map escChar).flatten ++ '"' :: (':' :: (renderV v ++ ('}' :: rest)))) := by
      simp
    rw [hshape, scan_fields_step]
    simp only [reduceIte, Char.reduceEq]
    rw [scanStrBody_escStr]
    simp only [Option.some_bind]
    rw [skipWS_cons_not_ws _ _ (by decide)]
    simp only [reduceIte]
    obtain ⟨c, r, hcr, hh⟩ := renderV_head v hwv
    have hprops := headOK_props c hh
    rw [hcr, List.cons_append, skipWS_cons_not_ws _ _ hprops.1, ← List.cons_append, ← hcr]
    rw [scanRenderV v hwv f ('}' :: rest) (by rw [fuelF] at hfuel; omega) rfl]
    simp only [Option.some_bind]
    rw [skipWS_cons_not_ws _ _ (by decide)]
    simp only [reduceIte, Char.reduceEq]
    rw [show renderF (.fcons k v JFields.fnil) =
      '"' :: (k.map escChar).flatten ++ '"' :: ':' :: renderV v ++ ['}'] from rfl]
  | k, v, .fcons k2 v2 fs2, hwv, hwf, fuel, rest, hfuel, hstop => by
    obtain ⟨f, rfl⟩ : ∃ f, fuel = f + 1 := ⟨fuel - 1, by simp [fuelF] at hfuel; omega⟩
    rw [wfF, Bool.and_eq_true] at hwf
    show scan (f + 1) .fields
      (('"' :: (k.map escChar).flatten ++ '"' :: ':' :: renderV v ++
        ',' :: renderF (.fcons k2 v2 fs2)) ++ rest) = _
    have hshape : ('"' :: (k.map escChar).flatten ++ '"' :: ':' :: renderV v ++
        ',' :: renderF (.fcons k2 v2 fs2)) ++ rest =
        '"' :: ((k.map escChar).flatten ++ '"' ::
          (':' :: (renderV v ++ (',' :: (renderF (.fcons k2 v2 fs2) ++ rest))))) := by
      simp
    rw [hshape, scan_fields_step]
    simp only [reduceIte, Char.reduceEq]
    rw [scanStrBody_escStr]
    simp only [Option.some_bind]
    rw [skipWS_cons_not_ws _ _ (by decide)]
    simp only [reduceIte]
    obtain ⟨c, r, hcr, hh⟩ := renderV_head v hwv
    have hprops := headOK_props c hh
    rw [hcr, List.cons_append, skipWS_cons_not_ws _ _ hprops.1, ← List.cons_append, ← hcr]
    rw [scanRenderV v hwv f (',' :: (renderF (.fcons k2 v2 fs2) ++ rest))
      (by rw [fuelF] at hfuel; omega) rfl]
    simp only [Option.some_bind]
    rw [skipWS_cons_not_ws _ _ (by decide)]
    simp only [reduceIte]
    obtain ⟨Y, hy⟩ := renderF_cons_shape k2 v2 fs2
    have hsk : skipWS (renderF (.fcons k2 v2 fs2) ++ rest) =
        renderF (.fcons k2 v2 fs2) ++ rest := by
      rw [hy, List.cons_append]
      exact skipWS_cons_not_ws _ _ (by decide)
    rw [hsk]
    rw [scanRenderF k2 v2 fs2 hwf.1 hwf.2 f rest (by rw [fuelF] at hfuel; omega) hstop]
    simp only [Option.map_some', Option.map_some, Option.some.injEq, Prod.mk.injEq]
    rw [show renderF (.fcons k v (.fcons k2 v2 fs2)) =
      '"' :: (k.map escChar).flatten ++ '"' :: ':' :: renderV v ++
        ',' :: renderF (.fcons k2 v2 fs2) from rfl]
    simp
termination_by k v fs _ _ _ _ _ _ => sizeOf v + sizeOf fs
end

/- The fuel needed by the scanner never exceeds the rendered length plus
one, so the scanner fuel chosen by `marshalPayload` is always enough. -/
mutual
theorem fuelBoundV : ∀ (v : JVal), fuelV v ≤ (renderV v).length + 1
  | .jnull => by simp [fuelV, renderV]
  | .jbool true => by simp [fuelV, renderV]
  | .jbool false => by simp [fuelV, renderV]
  | .jnum s => by simp [fuelV, renderV]
  | .jstr s => by simp [fuelV, renderV]
  | .jarr l => by
    have hl := fuelBoundL l
    rw [show renderV (.jarr l) = '[' :: renderL l from rfl, fuelV]
    simp only [List.length_cons]
    omega
  | .jobj f => by
    have hf := fuelBoundF f
    rw [show renderV (.jobj f) = '{' :: renderF f from rfl, fuelV]
    simp only [List.length_cons]
    omega
termination_by v => sizeOf v

theorem fuelBoundL : ∀ (l : JList), fuelL l ≤ (renderL l).length + 1
  | .jnil => by simp [fuelL, renderL]
  | .jcons v .jnil => by
    have hv := fuelBoundV v
    rw [show renderL (.jcons v .jnil) = renderV v ++ [']'] from rfl, fuelL]
    simp only [List.length_append, List.length_cons, List.length_nil, fuelL]
    omega
  | .jcons v (.jcons w l2) => by
    have hv := fuelBoundV v
    have hl := fuelBoundL (.jcons w l2)
    rw [show renderL (.jcons v (.jcons w l2)) =
      renderV v ++ ',' :: renderL (.jcons w l2) from rfl, fuelL]
    simp only [List.length_append, List.length_cons]
    omega
termination_by l => sizeOf l

theorem fuelBoundF : ∀ (f : JFields), fuelF f ≤ (renderF f).length + 1
  | .fnil => by simp [fuelF, renderF]
  | .fcons k v .fnil => by
    have hv := fuelBoundV v
    rw [show renderF (.fcons k v .fnil) =
      '"' :: (k.map escChar).flatten ++ '"' :: ':' :: renderV v ++ ['}'] from rfl, fuelF]
    simp only [List.length_append, List.length_cons, List.length_nil, fuelF]
    omega
  | .fcons k v (.fcons k2 v2 f2) => by
    have hv := fuelBoundV v
    have hf := fuelBoundF (.fcons k2 v2 f2)
    rw [show renderF (.fcons k v (.fcons k2 v2 f2)) =
      '"' :: (k.map escChar).flatten ++ '"' :: ':' :: renderV v ++
        ',' :: renderF (.fcons k2 v2 f2) from rfl, fuelF]
    simp only [List.length_append, List.length_cons]
    omega
termination_by f => sizeOf f
end

/-- The Go encoder is the identity on payloads that are already in canonical
compact escaped form: `json.Marshal` validates and copies them unchanged. -/
theorem marshalPayload_render (v : JVal) (hwf : wfV v = true) :
    marshalPayload (renderV v) = some (renderV v) := by
  obtain ⟨c, r, hcr, hh⟩ := renderV_head v hwf
  have hprops := headOK_props c hh
  have hsk : skipWS (renderV v) = renderV v := by
    rw [hcr]
    exact skipWS_cons_not_ws _ _ hprops.1
  have hscan : scan ((renderV v).length + 1) .val (renderV v) = some (renderV v, []) := by
    have h := scanRenderV v hwf ((renderV v).length + 1) []
      (le_trans (fuelBoundV v) (by omega)) rfl
    rwa [List.append_nil] at h
  rw [marshalPayload]
  simp only [hsk, hscan]
  simp [skipWS]

theorem isDigit_ne_nl (x : Char) (h : isDigit x = true) : x ≠ '\n' := by
  intro he
  subst he
  exact absurd h (by decide)

theorem mem_takeWhile_digits_ne_nl (l : Bytes) (x : Char)
    (hx : x ∈ l.takeWhile isDigit) : x ≠ '\n' :=
  isDigit_ne_nl x (List.mem_takeWhile_imp hx)

theorem scanIntPart_no_nl (s i r : Bytes) (h : scanIntPart s = some (i, r)) : '\n' ∉ i := by
  cases s with
  | nil => cases h
  | cons c xr =>
    rw [scanIntPart] at h
    by_cases h0 : c = '0'
    · rw [if_pos h0] at h
      cases h
      simp
    · rw [if_neg h0] at h
      by_cases hd : isDigit c
      · rw [if_pos hd] at h
        cases h
        intro hmem
        rcases List.mem_cons.mp hmem with hmem | hmem
        · exact isDigit_ne_nl c hd hmem.symm
        · exact mem_takeWhile_digits_ne_nl xr _ hmem rfl
      · rw [if_neg hd] at h
        cases h

theorem scanFrac_no_nl (s f0 r : Bytes) (h : scanFrac s = some (f0, r)) : '\n' ∉ f0 := by
  cases s with
  | nil =>
    rw [scanFrac] at h
    cases h
    simp
  | cons c xr =>
    rw [scanFrac] at h
    by_cases hdot : c = '.'
    · rw [if_pos hdot] at h
      simp only at h
      by_cases hds : (xr.takeWhile isDigit).isEmpty
      · rw [if_pos hds] at h
        cases h
      · rw [if_neg hds] at h
        cases h
        intro hmem
        rcases List.mem_cons.mp hmem with hmem | hmem
        · cases hmem
        · exact mem_takeWhile_digits_ne_nl xr _ hmem rfl
    · rw [if_neg hdot] at h
      cases h
      simp

theorem scanExpTail_no_nl (c : Char) (hc : c ≠ '\n') (s e0 r : Bytes)
    (h : scanExpTail c s = some (e0, r)) : '\n' ∉ e0 := by
  cases s with
  | nil => cases h
  | cons sgn r2 =>
    rw [scanExpTail] at h
    by_cases hsgn : (sgn = '+' || sgn = '-') = true
    · rw [if_pos hsgn] at h
      simp only at h
      by_cases hds : (r2.takeWhile isDigit).isEmpty
      · rw [if_pos hds] at h
        cases h
      · rw [if_neg hds] at h
        cases h
        intro hmem
        rcases List.mem_cons.mp hmem with hmem | hmem
        · exact hc hmem.symm
        rcases List.mem_cons.mp hmem with hmem | hmem
        · rw [eq_comm] at hmem
          subst hmem
          exact absurd hsgn (by decide)
        · exact mem_takeWhile_digits_ne_nl r2 _ hmem rfl
    · rw [if_neg hsgn] at h
      simp only at h
      by_cases hds : ((sgn :: r2).takeWhile isDigit).isEmpty
      · rw [if_pos hds] at h
        cases h
      · rw [if_neg hds] at h
        cases h
        intro hmem
        rcases List.mem_cons.mp hmem with hmem | hmem
        · exact hc hmem.symm
        · exact mem_takeWhile_digits_ne_nl (sgn :: r2) _ hmem rfl

theorem scanExp_no_nl (s e0 r : Bytes) (h : scanExp s = some (e0, r)) : '\n' ∉ e0 := by
  cases s with
  | nil =>
    rw [scanExp] at h
    cases h
    simp
  | cons c xr =>
    rw [scanExp] at h
    by_cases hce : (c = 'e' || c = 'E') = true
    · rw [if_pos hce] at h
      refine scanExpTail_no_nl c ?_ xr e0 r h
      rcases Bool.or_eq_true_iff.mp hce with hc | hc
      · rw [of_decide_eq_true hc]
        decide
      · rw [of_decide_eq_true hc]
        decide
    · rw [if_neg hce] at h
      cases h
      simp

theorem scanNum_no_nl (s v r : Bytes) (h : scanNum s = some (v, r)) : '\n' ∉ v := by
  have body : ∀ x w r2, scanNumBody x = some (w, r2) → '\n' ∉ w := by
    intro x w r2 hb
    rw [scanNumBody] at hb
    cases hip : scanIntPart x with
    | none => rw [hip] at hb; cases hb
    | some p =>
      obtain ⟨i, s1⟩ := p
      rw [hip] at hb
      simp only [Option.bind_eq_bind, Option.some_bind] at hb
      cases hf : scanFrac s1 with
      | none => rw [hf] at hb; cases hb
      | some q =>
        obtain ⟨f0, s2⟩ := q
        rw [hf] at hb
        simp only [Option.some_bind] at hb
        cases he : scanExp s2 with
        | none => rw [he] at hb; cases hb
        | some w2 =>
          obtain ⟨e0, s3⟩ := w2
          rw [he] at hb
          simp only [Option.some_bind, Option.some.injEq, Prod.mk.injEq] at hb
          obtain ⟨hw, _⟩ := hb
          subst hw
          intro hmem
          rcases List.mem_append.mp hmem with hmem | hmem
          · rcases List.mem_append.mp hmem with hmem | hmem
            · exact scanIntPart_no_nl x i s1 hip hmem
            · exact scanFrac_no_nl s1 f0 s2 hf hmem
          · exact scanExp_no_nl s2 e0 s3 he hmem
  cases s with
  | nil =>
    have hnone : scanNum ([] : Bytes) = none := rfl
    rw [hnone] at h
    cases h
  | cons c xr =>
    rw [scanNum] at h
    by_cases hc : c = '-'
    · rw [if_pos hc] at h
      cases hb : scanNumBody xr with
      | none => rw [hb] at h; cases h
      | some p =>
        obtain ⟨w, s3⟩ := p
        rw [hb] at h
        simp only [Option.map_some', Option.map_some, Option.some.injEq, Prod.mk.injEq] at h
        obtain ⟨hv, _⟩ := h
        subst hv
        intro hmem
        rcases List.mem_cons.mp hmem with hmem | hmem
        · cases hmem
        · exact body xr w s3 hb hmem
    · rw [if_neg hc] at h
      exact body (c :: xr) v r h

theorem hexDigitChar_ne_nl (m : Nat) (hm : m < 16) : hexDigitChar m ≠ '\n' := by
  interval_cases m <;> decide

theorem escChar_no_nl (c : Char) : '\n' ∉ escChar c := by
  by_cases h1 : c = '"'
  · subst h1; decide
  by_cases h2 : c = '\\'
  · subst h2; decide
  by_cases h3 : c = '\n'
  · subst h3; decide
  by_cases h4 : c = '\r'
  · subst h4; decide
  by_cases h5 : c = '\t'
  · subst h5; decide
  by_cases h6 : c.toNat < 32 || c = '<' || c = '>' || c = '&' ||
      c.toNat = 8232 || c.toNat = 8233
  · rw [escChar, if_neg h1, if_neg h2, if_neg h3, if_neg h4, if_neg h5, if_pos h6]
    intro hmem
    simp only [hex4, List.mem_cons, List.mem_singleton] at hmem
    rcases hmem with h | h | h | h | h | h | h
    · cases h
    · cases h
    · exact hexDigitChar_ne_nl _ (Nat.mod_lt _ (by omega)) h.symm
    · exact hexDigitChar_ne_nl _ (Nat.mod_lt _ (by omega)) h.symm
    · exact hexDigitChar_ne_nl _ (Nat.mod_lt _ (by omega)) h.symm
    · exact hexDigitChar_ne_nl _ (Nat.mod_lt _ (by omega)) h.symm
    · cases h
  · rw [escChar, if_neg h1, if_neg h2, if_neg h3, if_neg h4, if_neg h5, if_neg h6]
    intro hmem
    rcases List.mem_singleton.mp hmem with rfl
    exact h3 rfl

theorem escFlatten_no_nl (s : List Char) : '\n' ∉ (s.map escChar).flatten := by
  intro hmem
  obtain ⟨l, hl, hmem2⟩ := List.mem_flatten.mp hmem
  obtain ⟨c, _, rfl⟩ := List.mem_map.mp hl
  exact escChar_no_nl c hmem2

/- The canonical rendering of a well-formed value contains no newline, so a
marshalled record occupies exactly one line of the log file. -/
mutual
theorem renderV_no_nl : ∀ (v : JVal), wfV v = true → '\n' ∉ renderV v
  | .jnull, _ => by decide
  | .jbool true, _ => by decide
  | .jbool false, _ => by decide
  | .jnum s, hwf => by
    rw [wfV, numOK] at hwf
    exact scanNum_no_nl s s [] (beq_iff_eq.mp hwf)
  | .jstr s, _ => by
    rw [show renderV (.jstr s) = '"' :: (s.map escChar).flatten ++ ['"'] from rfl]
    intro hmem
    rcases List.mem_cons.mp hmem with h | h
    · cases h
    · rcases List.mem_append.mp h with h | h
      · exact escFlatten_no_nl s h
      · simp at h
  | .jarr l, hwf => by
    rw [show renderV (.jarr l) = '[' :: renderL l from rfl]
    intro hmem
    rcases List.mem_cons.mp hmem with h | h
    · cases h
    · exact renderL_no_nl l (by rw [wfV] at hwf; exact hwf) h
  | .jobj f, hwf => by
    rw [show renderV (.jobj f) = '{' :: renderF f from rfl]
    intro hmem
    rcases List.mem_cons.mp hmem with h | h
    · cases h
    · exact renderF_no_nl f (by rw [wfV] at hwf; exact hwf) h
termination_by v _ => sizeOf v

theorem renderL_no_nl : ∀ (l : JList), wfL l = true → '\n' ∉ renderL l
  | .jnil, _ => by decide
  | .jcons v .jnil, hwf => by
    rw [wfL, Bool.and_eq_true] at hwf
    rw [show renderL (.jcons v .jnil) = renderV v ++ [']'] from rfl]
    intro hmem
    rcases List.mem_append.mp hmem with h | h
    · exact renderV_no_nl v hwf.1 h
    · simp at h
  | .jcons v (.jcons w l2), hwf => by
    rw [wfL, Bool.and_eq_true] at hwf
    rw [show renderL (.jcons v (.jcons w l2)) =
      renderV v ++ ',' :: renderL (.jcons w l2) from rfl]
    intro hmem
    rcases List.mem_append.mp hmem with h | h
    · exact renderV_no_nl v hwf.1 h
    · rcases List.mem_cons.mp h with h | h
      · cases h
      · exact renderL_no_nl (.jcons w l2) hwf.2 h
termination_by l _ => sizeOf l

theorem renderF_no_nl : ∀ (f : JFields), wfF f = true → '\n' ∉ renderF f
  | .fnil, _ => by decide
  | .fcons k v .fnil, hwf => by
    rw [wfF, Bool.and_eq_true] at hwf
    have hv := renderV_no_nl v hwf.1
    have hk := escFlatten_no_nl k
    rw [show renderF (.fcons k v .fnil) =
      '"' :: (k.map escChar).flatten ++ '"' :: ':' :: renderV v ++ ['}'] from rfl]
    intro hmem
    simp only [List.mem_cons, List.mem_append, List.mem_singleton, Char.reduceEq, false_or,
      or_false] at hmem
    rcases hmem with (h | h) | h <;> first | exact hk h | exact hv h | simp at h
  | .fcons k v (.fcons k2 v2 f2), hwf => by
    rw [wfF, Bool.and_eq_true] at hwf
    have hv := renderV_no_nl v hwf.1
    have hk := escFlatten_no_nl k
    have hrec := renderF_no_nl (.fcons k2 v2 f2) hwf.2
    rw [show renderF (.fcons k v (.fcons k2 v2 f2)) =
      '"' :: (k.map escChar).flatten ++ '"' :: ':' :: renderV v ++
        ',' :: renderF (.fcons k2 v2 f2) from rfl]
    intro hmem
    simp only [List.mem_cons, List.mem_append, List.mem_singleton, Char.reduceEq, false_or,
      or_false] at hmem
    rcases hmem with (h | h) | h <;> first | exact hk h | exact hv h | exact hrec h
termination_by f _ => sizeOf f
end

/-- One chat message, mirroring `Message` in store.go (JSON tags `sessionId`,
`toolset,omitempty`, `direction`, `timestamp`, `payload`).  `timestamp`
abstracts `time.Time`: its JSON form is modelled as the quoted decimal
rendering of a natural number (an injective textual encoding, standing in for
RFC3339). -/
structure Message where
  sessionID : String
  toolset : String
  direction : String
  timestamp : Nat
  payload : Bytes
deriving DecidableEq, Inhabited, Repr

/-- A JSON string literal: quoted, escaped body. -/
def quoteStr (s : String) : Bytes := '"' :: escStr s ++ ['"']

/-- A field name followed by a colon, as the Go struct encoder emits it
(field names are plain ASCII, so escaping is the identity on them). -/
def keyColon (k : String) : Bytes := '"' :: k.data ++ ['"', ':']

/-- The behaviour of `json.Marshal` on a `Message`: fields in struct order,
`toolset` omitted when empty, payload validated and compacted
(`marshalPayload`); an invalid payload fails the whole marshal, exactly as in
`RecordMessage`. -/
def marshalMessage (m : Message) : Option Bytes :=
  (marshalPayload m.payload).map (fun pc =>
    ['{'] ++ keyColon "sessionId" ++ quoteStr m.sessionID ++
    (if m.toolset = "" then [] else [','] ++ keyColon "toolset" ++ quoteStr m.toolset) ++
    [','] ++ keyColon "direction" ++ quoteStr m.direction ++
    [','] ++ keyColon "timestamp" ++ ('"' :: natDecimal m.timestamp ++ ['"']) ++
    [','] ++ keyColon "payload" ++ pc ++ ['}'])

/-- ASCII lower-casing, used for Go's case-insensitive field matching. -/
def toLowerAscii (c : Char) : Char :=
  if 65 ≤ c.toNat && c.toNat ≤ 90 then Char.ofNat (c.toNat + 32) else c

/-- Go `encoding/json` field-name matching: exact match, or a case-folded
match as fallback. -/
def keyMatches (key : List Char) (name : String) : Bool :=
  key == name.data || key.map toLowerAscii == name.data.map toLowerAscii

/-- Decode a JSON value that must be a string (or `null`, which Go leaves
the field unchanged on): returns the decoded characters, or `none` inside
`some` for `null`; any other value is a type error. -/
def parseStringValue (s : Bytes) : Option (Option (List Char) × Bytes) :=
  match s with
  | [] => none
  | c :: r =>
    if c = '"' then (parseStringBody r).map (fun p => (some p.1, p.2))
    else if (c :: r).take 4 == "null".data then some (none, (c :: r).drop 4)
    else none

/-- Capture one JSON value verbatim, as `json.RawMessage.UnmarshalJSON`
receives it (the literal bytes of the value). -/
def parseRawValue (s : Bytes) : Option (Bytes × Bytes) :=
  (scan (s.length + 1) .val s).map (fun p => (s.take (s.length - p.2.length), p.2))

/-- Assign one decoded field of a `Message` (Go semantics: `null` leaves the
field unchanged; a wrong type is an error; unknown fields are skipped;
`timestamp` must parse; `payload` is captured verbatim). -/
def applyField (m : Message) (key : List Char) (s : Bytes) : Option (Message × Bytes) :=
  if keyMatches key "sessionId" then
    (parseStringValue s).map (fun p =>
      (match p.1 with
       | some v => { m with sessionID := String.mk v }
       | none => m, p.2))
  else if keyMatches key "toolset" then
    (parseStringValue s).map (fun p =>
      (match p.1 with
       | some v => { m with toolset := String.mk v }
       | none => m, p.2))
  else if keyMatches key "direction" then
    (parseStringValue s).map (fun p =>
      (match p.1 with
       | some v => { m with direction := String.mk v }
       | none => m, p.2))
  else if keyMatches key "timestamp" then
    (parseStringValue s).bind (fun p =>
      match p.1 with
      | some v => (parseDecimal v).map (fun n => ({ m with timestamp := n }, p.2))
      | none => some (m, p.2))
  else if keyMatches key "payload" then
    (parseRawValue s).map (fun p => ({ m with payload := p.1 }, p.2))
  else (parseRawValue s).map (fun p => (m, p.2))

/-- The object-member loop of `json.Unmarshal` into a `Message`: key, colon,
value, then comma or closing brace.  `first` is true only before the first
member, where an immediate closing brace (empty object) is legal.  `fuel` is
a Lean artifact bounding the loop (one unit per member; the input length
always suffices). -/
def parseFields : Nat → Bytes → Message → Bool → Option (Message × Bytes)
  | 0, _, _, _ => none
  | fuel+1, s, m, first =>
    match s with
    | [] => none
    | c :: r =>
      if c = '}' then (if first then some (m, r) else none)
      else if c = '"' then
        (parseStringBody r).bind (fun kp =>
          match skipWS kp.2 with
          | [] => none
          | d :: r3 =>
            if d = ':' then
              (applyField m kp.1 (skipWS r3)).bind (fun mp =>
                match skipWS mp.2 with
                | [] => none
                | e :: r6 =>
                  if e = ',' then parseFields fuel (skipWS r6) mp.1 false
                  else if e = '}' then some (mp.1, r6)
                  else none)
            else none)
      else none

/-- Top-level dispatch of `json.Unmarshal` after leading whitespace: the
value must be an object or `null`. -/
def unmarshalTop (n : Nat) : Bytes → Option Message
  | [] => none
  | c :: r =>
    if c = '{' then
      (parseFields n (skipWS r) default true).bind (fun p =>
        if (skipWS p.2).isEmpty then some p.1 else none)
    else if (c :: r).take 4 == "null".data then
      if (skipWS ((c :: r).drop 4)).isEmpty then some default else none
    else none

/-- The behaviour of `json.Unmarshal(line, &msg)`: the top-level value must
be an object (decoded member by member) or `null` (which leaves the zero
`Message`); anything else, malformed syntax, or trailing data is an error.
The fuel passed to the member loop is a Lean artifact (the input length
always suffices, one member consuming at least one character). -/
def unmarshalMessage (s : Bytes) : Option Message :=
  unmarshalTop (s.length + 1) (skipWS s)

theorem strMkData (s : String) : String.mk s.data = s := by
  cases s
  rfl

theorem parseKey_plain (k : String) (hk : (k.data.map escChar).flatten = k.data) (rest : Bytes) :
    parseStringBody (k.data ++ '"' :: rest) = some (k.data, rest) := by
  conv_lhs => rw [← hk]
  exact parseStringBody_escStr _ rest

theorem parseStringValue_quote (x : String) (rest : Bytes) :
    parseStringValue (quoteStr x ++ rest) = some (some x.data, rest) := by
  have hshape : quoteStr x ++ rest = '"' :: (escStr x ++ '"' :: rest) := by
    simp [quoteStr]
  rw [hshape, parseStringValue]
  simp only [reduceIte]
  rw [show (escStr x : Bytes) = (x.data.map escChar).flatten from rfl, parseStringBody_escStr]
  rfl

theorem natDigitsAux_lt (fuel n : Nat) : ∀ d ∈ natDigitsAux fuel n, d < 10 := by
  induction fuel generalizing n with
  | zero => intro d hd; cases hd
  | succ fuel ih =>
    intro d hd
    rw [natDigitsAux] at hd
    by_cases h10 : n < 10
    · rw [if_pos h10] at hd
      rcases List.mem_singleton.mp hd with rfl
      exact h10
    · rw [if_neg h10] at hd
      rcases List.mem_append.mp hd with hd | hd
      · exact ih (n / 10) d hd
      · rcases List.mem_singleton.mp hd with rfl
        exact Nat.mod_lt _ (by omega)

theorem escChar_digitChar (d : Nat) (hd : d < 10) : escChar (digitChar d) = [digitChar d] := by
  interval_cases d <;> decide

theorem escFlatten_natDecimal (n : Nat) :
    ((natDecimal n).map escChar).flatten = natDecimal n := by
  rw [natDecimal, List.map_map]
  have h : ∀ l : List Nat, (∀ d ∈ l, d < 10) →
      (l.map (escChar ∘ digitChar)).flatten = l.map digitChar := by
    intro l
    induction l with
    | nil => intro _; rfl
    | cons d rest ih =>
      intro hall
      simp only [List.map_cons, List.flatten_cons, Function.comp_apply,
        escChar_digitChar d (hall d (by simp))]
      rw [ih (fun x hx => hall x (by simp [hx]))]
      rfl
  exact h _ (natDigitsAux_lt _ _)

theorem parseStringValue_time (tm : Nat) (rest : Bytes) :
    parseStringValue (('"' :: natDecimal tm ++ ['"']) ++ rest) =
      some (some (natDecimal tm), rest) := by
  have hshape : ('"' :: natDecimal tm ++ ['"']) ++ rest =
      '"' :: (natDecimal tm ++ '"' :: rest) := by
    simp
  rw [hshape, parseStringValue]
  simp only [reduceIte]
  conv_lhs => rw [← escFlatten_natDecimal tm]
  rw [parseStringBody_escStr]
  rfl

theorem parseRawValue_render (v : JVal) (hwf : wfV v = true) (rest : Bytes)
    (hstop : stopOK rest = true) :
    parseRawValue (renderV v ++ rest) = some (renderV v, rest) := by
  have hfuel : fuelV v ≤ (renderV v ++ rest).length + 1 := by
    have := fuelBoundV v
    simp only [List.length_append]
    omega
  have hs := scanRenderV v hwf ((renderV v ++ rest).length + 1) rest hfuel hstop
  rw [parseRawValue, hs]
  have hlen : (renderV v ++ rest).length - rest.length = (renderV v).length := by
    simp [List.length_append]
  simp only [Option.map_some', Option.map_some, hlen, List.take_left]

theorem applyField_sessionId (m : Message) (x : String) (rest : Bytes) :
    applyField m "sessionId".data (quoteStr x ++ rest) =
      some ({ m with sessionID := x }, rest) := by
  rw [applyField, if_pos (by decide), parseStringValue_quote]
  simp [strMkData]

theorem applyField_toolset (m : Message) (x : String) (rest : Bytes) :
    applyField m "toolset".data (quoteStr x ++ rest) =
      some ({ m with toolset := x }, rest) := by
  rw [applyField, if_neg (by decide), if_pos (by decide), parseStringValue_quote]
  simp [strMkData]

theorem applyField_direction (m : Message) (x : String) (rest : Bytes) :
    applyField m "direction".data (quoteStr x ++ rest) =
      some ({ m with direction := x }, rest) := by
  rw [applyField, if_neg (by decide), if_neg (by decide), if_pos (by decide),
    parseStringValue_quote]
  simp [strMkData]

theorem applyField_timestamp (m : Message) (tm : Nat) (rest : Bytes) :
    applyField m "timestamp".data ('"' :: (natDecimal tm ++ '"' :: rest)) =
      some ({ m with timestamp := tm }, rest) := by
  have hshape : ('"' :: natDecimal tm ++ ['"']) ++ rest =
      '"' :: (natDecimal tm ++ '"' :: rest) := by
    simp
  rw [applyField, if_neg (by decide), if_neg (by decide), if_neg (by decide),
    if_pos (by decide), ← hshape, parseStringValue_time]
  simp [parseDecimal_natDecimal]

theorem applyField_payload (m : Message) (v : JVal) (hwf : wfV v = true) (rest : Bytes)
    (hstop : stopOK rest = true) :
    applyField m "payload".data (renderV v ++ rest) =
      some ({ m with payload := renderV v }, rest) := by
  rw [applyField, if_neg (by decide), if_neg (by decide), if_neg (by decide),
    if_neg (by decide), if_pos (by decide), parseRawValue_render v hwf rest hstop]
  rfl

/-- One member step of the object loop, for a field written the way the
encoder writes it (no interior whitespace). -/
theorem parseFields_field (fuel : Nat) (m m2 : Message) (first : Bool) (k : String)
    (hk : (k.data.map escChar).flatten = k.data) (S rest2 : Bytes)
    (hS : skipWS S = S)
    (happly : applyField m k.data S = some (m2, rest2)) :
    parseFields (fuel+1) ('"' :: (k.data ++ '"' :: ':' :: S)) m first =
      (match skipWS rest2 with
       | [] => none
       | e :: r6 =>
         if e = ',' then parseFields fuel (skipWS r6) m2 false
         else if e = '}' then some (m2, r6)
         else none) := by
  rw [parseFields]
  simp only [reduceIte, Char.reduceEq]
  rw [parseKey_plain k hk]
  simp only [Option.some_bind]
  rw [skipWS_cons_not_ws _ _ (by decide)]
  simp only [reduceIte]
  rw [hS, happly]
  simp only [Option.some_bind]

/-- The common tail of every marshalled record: the `direction`, `timestamp`
and `payload` members followed by the closing brace. -/
def lineTail (dir : String) (tm : Nat) (pc : Bytes) : Bytes :=
  '"' :: ("direction".data ++ '"' :: ':' :: (quoteStr dir ++ ',' ::
    ('"' :: ("timestamp".data ++ '"' :: ':' :: ('"' :: (natDecimal tm ++ '"' :: ',' ::
    ('"' :: ("payload".data ++ '"' :: ':' :: (pc ++ ['}'])))))))))

theorem parseFields_lineTail (g : Nat) (m : Message) (dir : String) (tm : Nat) (v : JVal)
    (hwf : wfV v = true) :
    parseFields (g+3) (lineTail dir tm (renderV v)) m false =
      some ({ m with direction := dir, timestamp := tm, payload := renderV v }, []) := by
  rw [lineTail]
  rw [show g + 3 = (g + 2) + 1 from rfl]
  rw [parseFields_field (g+2) m { m with direction := dir } false "direction" (by decide)
    _ _ rfl (applyField_direction m dir _)]
  rw [skipWS_cons_not_ws _ _ (by decide)]
  simp only [reduceIte, Char.reduceEq]
  rw [skipWS_cons_not_ws _ _ (by decide)]
  rw [show g + 2 = (g + 1) + 1 from rfl]
  rw [parseFields_field (g+1) _ { m with direction := dir, timestamp := tm } false
    "timestamp" (by decide) _ _ rfl (applyField_timestamp { m with direction := dir } tm _)]
  rw [skipWS_cons_not_ws _ _ (by decide)]
  simp only [reduceIte, Char.reduceEq]
  rw [skipWS_cons_not_ws _ _ (by decide)]
  have hSp : skipWS (renderV v ++ ['}']) = renderV v ++ ['}'] := by
    obtain ⟨c, r, hcr, hh⟩ := renderV_head v hwf
    rw [hcr, List.cons_append]
    exact skipWS_cons_not_ws _ _ (headOK_props c hh).1
  rw [show g + 1 = g + 1 from rfl]
  rw [parseFields_field g _
    { m with direction := dir, timestamp := tm, payload := renderV v } false
    "payload" (by decide) _ _ hSp (applyField_payload _ v hwf ['}'] rfl)]
  rfl

theorem digitChar_ne_nl (d : Nat) (hd : d < 10) : digitChar d ≠ '\n' := by
  interval_cases d <;> decide

theorem natDecimal_no_nl (n : Nat) : '\n' ∉ natDecimal n := by
  intro h
  obtain ⟨d, hd, he⟩ := List.mem_map.mp h
  exact digitChar_ne_nl d (natDigitsAux_lt _ _ d hd) he

theorem quoteStr_no_nl (x : String) : '\n' ∉ quoteStr x := by
  intro h
  rcases List.mem_cons.mp h with h | h
  · cases h
  rcases List.mem_append.mp h with h | h
  · exact escFlatten_no_nl x.data h
  · simp at h

theorem unmarshal_obj (B : Bytes) (m : Message) (k : Nat) (hlen : k ≤ B.length + 2)
    (hB : skipWS B = B)
    (hparse : ∀ fuel, k ≤ fuel → parseFields fuel B default true = some (m, [])) :
    unmarshalMessage ('{' :: B) = some m := by
  rw [unmarshalMessage, skipWS_cons_not_ws _ _ (by decide), unmarshalTop]
  simp only [reduceIte, Char.reduceEq]
  rw [hB, hparse (('{' :: B).length + 1) (by simp; omega)]
  simp [skipWS]

/-- Grand round-trip for one record: marshalling a message whose payload is
in canonical compact form succeeds, the resulting line decodes back to
exactly the same message, and the line is newline-free and brace-terminated
(so it occupies one log line and survives `dropCR`). -/
theorem marshalMessage_roundtrip (sid ts dir : String) (tm : Nat) (v : JVal)
    (hwf : wfV v = true) :
    ∃ line, marshalMessage ⟨sid, ts, dir, tm, renderV v⟩ = some line ∧
      unmarshalMessage line = some ⟨sid, ts, dir, tm, renderV v⟩ ∧
      '\n' ∉ line ∧ line.getLast? = some '}' := by
  have hpc := marshalPayload_render v hwf
  by_cases hts : ts = ""
  · subst hts
    have hmar : marshalMessage ⟨sid, "", dir, tm, renderV v⟩ =
        some (['{'] ++ keyColon "sessionId" ++ quoteStr sid ++
          (if ("" : String) = "" then ([] : Bytes) else
            [','] ++ keyColon "toolset" ++ quoteStr "") ++
          [','] ++ keyColon "direction" ++ quoteStr dir ++
          [','] ++ keyColon "timestamp" ++ ('"' :: natDecimal tm ++ ['"']) ++
          [','] ++ keyColon "payload" ++ renderV v ++ ['}']) := by
      rw [marshalMessage]
      rw [hpc]
      rfl
    refine ⟨_, hmar, ?_, ?_, ?_⟩
    · have hnorm : (['{'] ++ keyColon "sessionId" ++ quoteStr sid ++
          (if ("" : String) = "" then ([] : Bytes) else
            [','] ++ keyColon "toolset" ++ quoteStr "") ++
          [','] ++ keyColon "direction" ++ quoteStr dir ++
          [','] ++ keyColon "timestamp" ++ ('"' :: natDecimal tm ++ ['"']) ++
          [','] ++ keyColon "payload" ++ renderV v ++ ['}']) =
          '{' :: '"' :: ("sessionId".data ++ '"' :: ':' ::
            (quoteStr sid ++ ',' :: lineTail dir tm (renderV v))) := by
        simp [keyColon, lineTail]
      rw [hnorm]
      apply unmarshal_obj _ _ 4
      · have h9 : ("sessionId".data).length = 9 := rfl
        simp only [List.length_cons, List.length_append, h9]
        omega
      · rfl
      · intro fuel hfuel
        obtain ⟨g, rfl⟩ : ∃ g, fuel = g + 4 := ⟨fuel - 4, by omega⟩
        rw [show g + 4 = (g + 3) + 1 from rfl]
        rw [parseFields_field (g+3) default { (default : Message) with sessionID := sid } true
          "sessionId" (by decide) _ _ rfl (applyField_sessionId default sid _)]
        rw [skipWS_cons_not_ws _ _ (by decide)]
        simp only [reduceIte, Char.reduceEq]
        rw [show skipWS (lineTail dir tm (renderV v)) = lineTail dir tm (renderV v) from rfl]
        rw [parseFields_lineTail g _ dir tm v hwf]
        rfl
    · intro hmem
      have h1 := quoteStr_no_nl sid
      have h2 := quoteStr_no_nl dir
      have h3 := natDecimal_no_nl tm
      have h4 := renderV_no_nl v hwf
      simp only [keyColon, List.append_assoc, List.mem_append, List.mem_cons,
        List.mem_singleton, List.not_mem_nil, Char.reduceEq, false_or, or_false,
        eq_false (by decide : ¬ ('\n' : Char) ∈ "sessionId".data),
        eq_false (by decide : ¬ ('\n' : Char) ∈ "direction".data),
        eq_false (by decide : ¬ ('\n' : Char) ∈ "timestamp".data),
        eq_false (by decide : ¬ ('\n' : Char) ∈ "payload".data),
        eq_false h1, eq_false h2, eq_false h3, eq_false h4, reduceIte] at hmem
    · rw [show (['{'] ++ keyColon "sessionId" ++ quoteStr sid ++
          (if ("" : String) = "" then ([] : Bytes) else
            [','] ++ keyColon "toolset" ++ quoteStr "") ++
          [','] ++ keyColon "direction" ++ quoteStr dir ++
          [','] ++ keyColon "timestamp" ++ ('"' :: natDecimal tm ++ ['"']) ++
          [','] ++ keyColon "payload" ++ renderV v ++ ['}']) =
          (['{'] ++ keyColon "sessionId" ++ quoteStr sid ++
          (if ("" : String) = "" then ([] : Bytes) else
            [','] ++ keyColon "toolset" ++ quoteStr "") ++
          [','] ++ keyColon "direction" ++ quoteStr dir ++
          [','] ++ keyColon "timestamp" ++ ('"' :: natDecimal tm ++ ['"']) ++
          [','] ++ keyColon "payload" ++ renderV v) ++ ['}'] from by simp]
      exact List.getLast?_concat _
  · have hmar : marshalMessage ⟨sid, ts, dir, tm, renderV v⟩ =
        some (['{'] ++ keyColon "sessionId" ++ quoteStr sid ++
          (if ts = "" then ([] : Bytes) else
            [','] ++ keyColon "toolset" ++ quoteStr ts) ++
          [','] ++ keyColon "direction" ++ quoteStr dir ++
          [','] ++ keyColon "timestamp" ++ ('"' :: natDecimal tm ++ ['"']) ++
          [','] ++ keyColon "payload" ++ renderV v ++ ['}']) := by
      rw [marshalMessage]
      rw [hpc]
      rfl
    refine ⟨_, hmar, ?_, ?_, ?_⟩
    · have hnorm : (['{'] ++ keyColon "sessionId" ++ quoteStr sid ++
          (if ts = "" then ([] : Bytes) else
            [','] ++ keyColon "toolset" ++ quoteStr ts) ++
          [','] ++ keyColon "direction" ++ quoteStr dir ++
          [','] ++ keyColon "timestamp" ++ ('"' :: natDecimal tm ++ ['"']) ++
          [','] ++ keyColon "payload" ++ renderV v ++ ['}']) =
          '{' :: '"' :: ("sessionId".data ++ '"' :: ':' ::
            (quoteStr sid ++ ',' :: '"' :: ("toolset".data ++ '"' :: ':' ::
              (quoteStr ts ++ ',' :: lineTail dir tm (renderV v))))) := by
        rw [if_neg hts]
        simp [keyColon, lineTail]
      rw [hnorm]
      apply unmarshal_obj _ _ 5
      · have h9 : ("sessionId".data).length = 9 := rfl
        simp only [List.length_cons, List.length_append, h9]
        omega
      · rfl
      · intro fuel hfuel
        obtain ⟨g, rfl⟩ : ∃ g, fuel = g + 5 := ⟨fuel - 5, by omega⟩
        rw [show g + 5 = (g + 4) + 1 from rfl]
        rw [parseFields_field (g+4) default { (default : Message) with sessionID := sid } true
          "sessionId" (by decide) _ _ rfl (applyField_sessionId default sid _)]
        rw [skipWS_cons_not_ws _ _ (by decide)]
        simp only [reduceIte, Char.reduceEq]
        rw [skipWS_cons_not_ws _ _ (by decide)]
        rw [show g + 4 = (g + 3) + 1 from rfl]
        rw [parseFields_field (g+3) _ { (default : Message) with sessionID := sid, toolset := ts } false
          "toolset" (by decide) _ _ rfl
          (applyField_toolset { (default : Message) with sessionID := sid } ts _)]
        rw [skipWS_cons_not_ws _ _ (by decide)]
        simp only [reduceIte, Char.reduceEq]
        rw [show skipWS (lineTail dir tm (renderV v)) = lineTail dir tm (renderV v) from rfl]
        rw [parseFields_lineTail g _ dir tm v hwf]
    · intro hmem
      have h1 := quoteStr_no_nl sid
      have h2 := quoteStr_no_nl dir
      have h3 := natDecimal_no_nl tm
      have h4 := renderV_no_nl v hwf
      have h5 := quoteStr_no_nl ts
      rw [if_neg hts] at hmem
      simp only [keyColon, List.append_assoc, List.mem_append, List.mem_cons,
        List.mem_singleton, List.not_mem_nil, Char.reduceEq, false_or, or_false,
        eq_false (by decide : ¬ ('\n' : Char) ∈ "sessionId".data),
        eq_false (by decide : ¬ ('\n' : Char) ∈ "toolset".data),
        eq_false (by decide : ¬ ('\n' : Char) ∈ "direction".data),
        eq_false (by decide : ¬ ('\n' : Char) ∈ "timestamp".data),
        eq_false (by decide : ¬ ('\n' : Char) ∈ "payload".data),
        eq_false h1, eq_false h2, eq_false h3, eq_false h4, eq_false h5] at hmem
    · rw [show (['{'] ++ keyColon "sessionId" ++ quoteStr sid ++
          (if ts = "" then ([] : Bytes) else
            [','] ++ keyColon "toolset" ++ quoteStr ts) ++
          [','] ++ keyColon "direction" ++ quoteStr dir ++
          [','] ++ keyColon "timestamp" ++ ('"' :: natDecimal tm ++ ['"']) ++
          [','] ++ keyColon "payload" ++ renderV v ++ ['}']) =
          (['{'] ++ keyColon "sessionId" ++ quoteStr sid ++
          (if ts = "" then ([] : Bytes) else
            [','] ++ keyColon "toolset" ++ quoteStr ts) ++
          [','] ++ keyColon "direction" ++ quoteStr dir ++
          [','] ++ keyColon "timestamp" ++ ('"' :: natDecimal tm ++ ['"']) ++
          [','] ++ keyColon "payload" ++ renderV v) ++ ['}'] from by simp]
      exact List.getLast?_concat _


/-! ## The store model

`store.go` keeps one directory per status (`active/`, `archived/`) under the
root; each session is one `.jsonl` file.  A directory is modeled as an
association list (`Dirn`); `Option Dirn` distinguishes a missing directory
(deleted externally) from an empty one.  All file-system faults relevant to
`ArchiveSession` are injected through an explicit fault record. -/

set_option synthInstance.maxHeartbeats 1000000 in
structure FS where
  active : Option Dirn
  archived : Option Dirn
deriving DecidableEq, Inhabited, Repr

/-- The error outcomes of the store's operations, one constructor per
`fmt.Errorf` site in `store.go` that the model can reach. -/
inductive StoreErr where
  | sessionRequired
  | marshalErr
  | openErr
  | writeErr
  | statSourceErr
  | statDestErr
  | readErr
  | removeErr
  | renameErr
  | notConfigured
  | outputPathRequired
  | decodeErr
deriving DecidableEq, Repr

/-- The rune mapping of `sanitizeSessionID` (store.go:237): ASCII letters,
digits, `-`, `_` and `.` are kept, every other rune becomes `_`. -/
def sanChar (r : Char) : Char :=
  if 97 ≤ r.toNat && r.toNat ≤ 122 then r
  else if 65 ≤ r.toNat && r.toNat ≤ 90 then r
  else if 48 ≤ r.toNat && r.toNat ≤ 57 then r
  else if r = '-' || r = '_' || r = '.' then r
  else '_'

/-- `sanitizeSessionID` = `strings.Map(sanChar, sessionID)`. -/
def sanitizeSessionID (s : String) : String := String.mk (s.data.map sanChar)

/-- The base name of a session's log file: `sanitizeSessionID(id) + ".jsonl"`
(`sessionPath`, store.go:228; the status directory is the `FS` field). -/
def sessionFile (sessionID : String) : String := sanitizeSessionID sessionID ++ ".jsonl"

/-- The Unicode White_Space property, as `unicode.IsSpace` decides it
(the full code-point list). -/
def isSpaceGo (c : Char) : Bool :=
  (9 ≤ c.toNat && c.toNat ≤ 13) || c.toNat == 32 || c.toNat == 0x85 || c.toNat == 0xA0 ||
  c.toNat == 0x1680 || (0x2000 ≤ c.toNat && c.toNat ≤ 0x200A) || c.toNat == 0x2028 ||
  c.toNat == 0x2029 || c.toNat == 0x202F || c.toNat == 0x205F || c.toNat == 0x3000

/-- Go `strings.TrimSpace`. -/
def trimSpace (s : String) : String :=
  String.mk (((s.data.dropWhile isSpaceGo).reverse.dropWhile isSpaceGo).reverse)

/-- A store handle: `none` is the `nil` store that `NewStore` returns for a
blank root (the disabled state), `some fs` a configured store over state `fs`. -/
abbrev Store := Option FS

/-- `NewStore` (store.go:64): a blank root yields the nil store; otherwise the
two status directories are created if missing (`os.MkdirAll`), keeping any
content already on disk (`disk`). -/
def newStore (rootDir : String) (disk : FS) : Store :=
  if trimSpace rootDir = "" then none
  else some ⟨some ((disk.active).getD []), some ((disk.archived).getD [])⟩

/-- `RecordMessage` on a configured store (store.go:77): an empty session id
is refused before anything else; the message is marshalled (which validates
and compacts the payload — `marshalMessage`); the line plus `'\n'` is appended
to the session's active log, creating the file if needed.  Opening the file
fails when the active directory is missing. -/
def recordMessageF (fs : FS) (sessionID toolset direction : String) (tm : Nat)
    (payload : Bytes) : Option StoreErr × FS :=
  if sessionID = "" then (some .sessionRequired, fs)
  else
    match marshalMessage ⟨sessionID, toolset, direction, tm, payload⟩ with
    | none => (some .marshalErr, fs)
    | some line =>
      match fs.active with
      | none => (some .openErr, fs)
      | some d =>
        let name := sessionFile sessionID
        let old := (dirGet d name).getD []
        (none, { fs with active := some (dirPut d name (old ++ line ++ ['\n'])) })

/-- `RecordMessage` including the `s == nil` guard (store.go:78). -/
def recordMessage (st : Store) (sessionID toolset direction : String) (tm : Nat)
    (payload : Bytes) : Option StoreErr × Store :=
  match st with
  | none => (none, none)
  | some fs =>
    let r := recordMessageF fs sessionID toolset direction tm payload
    (r.1, some r.2)

/-- Fault injection for `ArchiveSession`: one flag per fallible file-system
primitive the function touches, in source order. -/
structure ArchiveFaults where
  statSource : Bool
  statDest : Bool
  readSource : Bool
  openDest : Bool
  writeDest : Bool
  removeSource : Bool
  renameFail : Bool
deriving DecidableEq, Repr

def noFaults : ArchiveFaults := ⟨false, false, false, false, false, false, false⟩

/-- `ArchiveSession` on a configured store (store.go:116), with injected
faults.  An empty id or a missing source log is a successful no-op.  If a
destination log already exists the source is appended to it (`appendFile` =
read source, open dest, write) and only then removed; otherwise the source is
renamed into the archived directory (which fails if that directory is
missing). -/
def archiveSessionF (flt : ArchiveFaults) (fs : FS) (sessionID : String) :
    Option StoreErr × FS :=
  if sessionID = "" then (none, fs)
  else
    let name := sessionFile sessionID
    if flt.statSource then (some .statSourceErr, fs)
    else
      match fs.active.bind (fun d => dirGet d name) with
      | none => (none, fs)
      | some srcData =>
        if flt.statDest then (some .statDestErr, fs)
        else
          match fs.archived.bind (fun d => dirGet d name) with
          | some destData =>
            if flt.readSource then (some .readErr, fs)
            else if flt.openDest then (some .openErr, fs)
            else if flt.writeDest then (some .writeErr, fs)
            else
              let fs1 : FS :=
                { fs with archived := fs.archived.map (fun d => dirPut d name (destData ++ srcData)) }
              if flt.removeSource then (some .removeErr, fs1)
              else (none, { fs1 with active := fs1.active.map (fun d => dirDel d name) })
          | none =>
            if flt.renameFail || fs.archived == none then (some .renameErr, fs)
            else
              (none, { active := fs.active.map (fun d => dirDel d name),
                       archived := fs.archived.map (fun d => dirPut d name srcData) })

/-- The fault-free `ArchiveSession` on a configured store. -/
def archiveSession (fs : FS) (sessionID : String) : Option StoreErr × FS :=
  archiveSessionF noFaults fs sessionID

/-- `ArchiveSession` including the `s == nil` guard (store.go:117). -/
def archiveSessionS (st : Store) (sessionID : String) : Option StoreErr × Store :=
  match st with
  | none => (none, none)
  | some fs =>
    let r := archiveSession fs sessionID
    (r.1, some r.2)

/-! ## Loading chats -/

/-- One parsed log line per `json.Unmarshal` call in `readMessages`
(store.go:280): the first malformed line aborts the whole read. -/
def readMessagesLines : List Bytes → Option (List Message)
  | [] => some []
  | l :: rest =>
    (unmarshalMessage l).bind (fun m => (readMessagesLines rest).map (fun ms => m :: ms))

/-- `readMessages` (store.go:270): split the file into lines
(`bufio.ScanLines`) and decode each one. -/
def readMessages (content : Bytes) : Option (List Message) :=
  readMessagesLines (splitLines content)

/-- `".jsonl"`. -/
def jsonlSuffix : List Char := ['.', 'j', 's', 'o', 'n', 'l']

/-- `strings.HasSuffix(name, ".jsonl")` plus `strings.TrimSuffix`: the base
name when the suffix matches, `none` otherwise (such entries are skipped). -/
def trimJsonl (n : List Char) : Option (List Char) :=
  if jsonlSuffix.isSuffixOf n then some (n.take (n.length - 6)) else none

/-- Go string `<` is bytewise lexicographic comparison, which on UTF-8 agrees
with code-point order — i.e. with lexicographic order on `.data`.  (Boolean,
on `.data`, because Lean's `String.decidableLT` does not reduce in the
kernel.) -/
def strLt (a b : String) : Bool := decide (a.data < b.data)

theorem strLt_iff (a b : String) : strLt a b = true ↔ a < b := by
  rw [strLt, decide_eq_true_eq]
  exact String.lt_iff_toList_lt.symm

theorem strLt_eq_false_iff (a b : String) : strLt a b = false ↔ b ≤ a := by
  rw [strLt, decide_eq_false_iff_not,
    show (a.data < b.data) ↔ a < b from String.lt_iff_toList_lt.symm]
  exact not_lt

/-- Insert a directory entry into a name-sorted list (used to model that
`os.ReadDir` returns entries sorted by filename). -/
def insertByName (e : String × Bytes) : Dirn → Dirn
  | [] => [e]
  | f :: rest => if strLt e.1 f.1 then e :: f :: rest else f :: insertByName e rest

/-- The entry list `os.ReadDir` yields: the directory sorted by filename. -/
def readDirSorted (d : Dirn) : Dirn := d.foldr insertByName []

/-- A `Chat` (store.go:45): one log file's worth of messages, keyed by the
session id recovered from the file name. -/
structure Chat where
  sessionID : String
  archived : Bool
  messages : List Message
deriving DecidableEq, Inhabited, Repr

/-- The entry loop of `loadChats` (store.go:210): skip entries without the
`.jsonl` suffix, read and decode the rest, one `Chat` per file with the
session id recovered from the file name; any decode failure aborts. -/
def loadChatsEntries (archived : Bool) : Dirn → Option (List Chat)
  | [] => some []
  | (name, content) :: rest =>
    match trimJsonl name.data with
    | none => loadChatsEntries archived rest
    | some base =>
      match readMessages content with
      | none => none
      | some msgs =>
        (loadChatsEntries archived rest).map
          (fun cs => ⟨String.mk base, archived, msgs⟩ :: cs)

/-- `loadChats` (store.go:195): a missing status directory yields an empty
list and no error; otherwise the sorted entries are loaded. -/
def loadChats (fs : FS) (archived : Bool) : Option (List Chat) :=
  match (if archived then fs.archived else fs.active) with
  | none => some []
  | some d => loadChatsEntries archived (readDirSorted d)

/-! ## `sort.Slice` = Go's pdqsort

`ExportAll` sorts with `sort.Slice`, which is **not** documented stable; since
Go 1.19 it runs the pattern-defeating quicksort of `sort/zsortfunc.go`.  The
functions below are positional transliterations of that file over a
`List Chat`, with the comparison `chats[i].SessionID < chats[j].SessionID`
of store.go:177.  Loops are fueled; every fuel is sufficient for the loop it
drives (each loop's counter moves toward its bound by one per step). -/

/-- `data[i]` of the slice being sorted. -/
def elemAt (l : List Chat) (i : Nat) : Chat := l.getD i default

/-- `data.Swap(i, j)`. -/
def lswap (l : List Chat) (i j : Nat) : List Chat :=
  (l.set i (elemAt l j)).set j (elemAt l i)

/-- `data.Less(i, j)`: the closure of `ExportAll` (store.go:177); Go string
`<` is lexicographic, as Lean's. -/
def lessAt (l : List Chat) (i j : Nat) : Bool :=
  strLt (elemAt l i).sessionID (elemAt l j).sessionID

/-- The inner shift of `insertionSort_func`:
`for j := i; j > a && data.Less(j, j-1); j--` with a swap per step. -/
def insInner : Nat → List Chat → Nat → Nat → List Chat
  | 0, l, _, _ => l
  | fuel+1, l, a, j =>
    if a < j && lessAt l j (j - 1) then insInner fuel (lswap l (j - 1) j) a (j - 1) else l

/-- The outer loop of `insertionSort_func`: `for i := a + 1; i < b; i++`. -/
def insOuter : Nat → List Chat → Nat → Nat → Nat → List Chat
  | 0, l, _, _, _ => l
  | fuel+1, l, a, i, b =>
    if i < b then insOuter fuel (insInner i l a i) a (i + 1) b else l

/-- `insertionSort_func(data, a, b)`. -/
def insertionSortRange (l : List Chat) (a b : Nat) : List Chat :=
  insOuter (b - a) l a (a + 1) b

/-- `siftDown_func(data, root, hi, first)` (`root` is `lo` at the call). -/
def siftDownF : Nat → List Chat → Nat → Nat → Nat → List Chat
  | 0, l, _, _, _ => l
  | fuel+1, l, root, hi, first =>
    if hi ≤ 2 * root + 1 then l
    else
      let child :=
        if 2 * root + 2 < hi && lessAt l (first + 2 * root + 1) (first + 2 * root + 2)
        then 2 * root + 2 else 2 * root + 1
      if !(lessAt l (first + root) (first + child)) then l
      else siftDownF fuel (lswap l (first + root) (first + child)) child hi first

/-- The heap-building loop of `heapSort_func`:
`for i := (hi - 1) / 2; i >= 0; i--`; the counter is `i + 1`. -/
def heapBuild : List Chat → Nat → Nat → Nat → List Chat
  | l, 0, _, _ => l
  | l, k+1, hi, first => heapBuild (siftDownF hi l k hi first) k hi first

/-- The extraction loop of `heapSort_func`: `for i := hi - 1; i >= 0; i--`
with `Swap(first, first+i); siftDown(lo, i, first)`; the counter is `i + 1`. -/
def heapExtract : List Chat → Nat → Nat → List Chat
  | l, 0, _ => l
  | l, k+1, first =>
    heapExtract (siftDownF (k + 1) (lswap l first (first + k)) 0 k first) k first

/-- `heapSort_func(data, a, b)`. -/
def heapSortRange (l : List Chat) (a b : Nat) : List Chat :=
  heapExtract (heapBuild l ((b - a - 1) / 2 + 1) (b - a) a) (b - a) a

/-- `bits.Len` (the number of bits of `n`). -/
def bitsLenAux : Nat → Nat → Nat
  | 0, _ => 0
  | fuel+1, n => if n = 0 then 0 else bitsLenAux fuel (n / 2) + 1

def bitsLen (n : Nat) : Nat := bitsLenAux (n + 1) n

/-- One step of Go's `xorshift` pseudo-random generator (uint64). -/
def xorshiftNext (r : Nat) : Nat :=
  let m := 2 ^ 64
  let r1 := (r ^^^ (r <<< 13)) % m
  let r2 := r1 ^^^ (r1 >>> 7)
  (r2 ^^^ (r2 <<< 17)) % m

/-- One swap of `breakPatterns_func`'s loop: draw the next random index and
swap it with one of the three positions around the middle.  `modulus` is a
power of two, so Go's `& (modulus-1)` is `% modulus`. -/
def bpStep (l : List Chat) (rand a length modulus idx i : Nat) : List Chat × Nat :=
  let r := xorshiftNext rand
  let other0 := r % modulus
  let other := if length ≤ other0 then other0 - length else other0
  (lswap l (idx - 1 + i) (a + other), r)

/-- `breakPatterns_func(data, a, b)`: for ranges of length ≥ 8, swap three
positions near the middle with pseudo-random ones (seed = length). -/
def breakPatterns (l : List Chat) (a b : Nat) : List Chat :=
  let length := b - a
  if 8 ≤ length then
    let modulus := 1 <<< bitsLen length
    let idx := a + (length / 4) * 2 - 1
    let p1 := bpStep l length a length modulus idx 0
    let p2 := bpStep p1.1 p1.2 a length modulus idx 1
    (bpStep p2.1 p2.2 a length modulus idx 2).1
  else l

/-- `order2_func`: order two indices by the data, counting a swap. -/
def order2 (l : List Chat) (a b swaps : Nat) : Nat × Nat × Nat :=
  if lessAt l b a then (b, a, swaps + 1) else (a, b, swaps)

/-- `median_func`: index of the median of three, threading the swap count. -/
def medianIdx (l : List Chat) (a b c swaps : Nat) : Nat × Nat :=
  let p1 := order2 l a b swaps
  let p2 := order2 l p1.2.1 c p1.2.2
  let p3 := order2 l p1.1 p2.1 p2.2.2
  (p3.2.1, p3.2.2)

/-- `medianAdjacent_func`: median of `{a-1, a, a+1}`. -/
def medianAdjacent (l : List Chat) (a swaps : Nat) : Nat × Nat :=
  medianIdx l (a - 1) a (a + 1) swaps

/-- The hints of `choosePivot_func`, encoded by the swap count's meaning:
0 swaps = increasing, 12 = decreasing, otherwise unknown. -/
inductive SortHint where
  | increasing
  | decreasing
  | unknown
deriving DecidableEq, Repr

/-- `choosePivot_func(data, a, b)`: median (of medians) of fixed sample
positions; the swap count gives the sortedness hint. -/
def choosePivot (l : List Chat) (a b : Nat) : Nat × SortHint :=
  let len := b - a
  let i0 := a + (len / 4) * 1
  let j0 := a + (len / 4) * 2
  let k0 := a + (len / 4) * 3
  let r :=
    if 8 ≤ len then
      if 50 ≤ len then
        let p1 := medianAdjacent l i0 0
        let p2 := medianAdjacent l j0 p1.2
        let p3 := medianAdjacent l k0 p2.2
        medianIdx l p1.1 p2.1 p3.1 p3.2
      else medianIdx l i0 j0 k0 0
    else (j0, 0)
  (r.1, if r.2 = 0 then .increasing else if r.2 = 12 then .decreasing else .unknown)

/-- `reverseRange_func`'s loop: `i := a; j := b - 1; for i < j`. -/
def revRange : Nat → List Chat → Nat → Nat → List Chat
  | 0, l, _, _ => l
  | fuel+1, l, i, j => if i < j then revRange fuel (lswap l i j) (i + 1) (j - 1) else l

def reverseRange (l : List Chat) (a b : Nat) : List Chat := revRange (b - a) l a (b - 1)

/-- The scan of `partialInsertionSort_func`: advance `i` while the pair
`(i-1, i)` is in order. -/
def pisScan : Nat → List Chat → Nat → Nat → Nat
  | 0, _, i, _ => i
  | fuel+1, l, i, b => if i < b && !(lessAt l i (i - 1)) then pisScan fuel l (i + 1) b else i

/-- The left shift of `partialInsertionSort_func`:
`for j := i - 1; j >= 1; j--`, stopping at the first ordered pair. -/
def pisShiftLeft : Nat → List Chat → Nat → List Chat
  | 0, l, _ => l
  | fuel+1, l, j =>
    if 1 ≤ j && lessAt l j (j - 1) then pisShiftLeft fuel (lswap l j (j - 1)) (j - 1) else l

/-- The right shift of `partialInsertionSort_func`: `for j := i + 1; j < b; j++`. -/
def pisShiftRight : Nat → List Chat → Nat → Nat → List Chat
  | 0, l, _, _ => l
  | fuel+1, l, j, b =>
    if j < b && lessAt l j (j - 1) then pisShiftRight fuel (lswap l j (j - 1)) (j + 1) b else l

/-- The step loop of `partialInsertionSort_func` (`maxSteps = 5`,
`shortestShifting = 50`): `true` means the range was found sorted. -/
def pisLoop : Nat → List Chat → Nat → Nat → Nat → Bool × List Chat
  | 0, l, _, _, _ => (false, l)
  | steps+1, l, i, a, b =>
    let i1 := pisScan (b - i + 1) l i b
    if i1 = b then (true, l)
    else if b - a < 50 then (false, l)
    else
      let l1 := lswap l i1 (i1 - 1)
      let l2 := if 2 ≤ i1 - a then pisShiftLeft i1 l1 (i1 - 1) else l1
      let l3 := if 2 ≤ b - i1 then pisShiftRight (b - i1) l2 (i1 + 1) b else l2
      pisLoop steps l3 i1 a b

/-- `partialInsertionSort_func(data, a, b)`. -/
def partialInsSort (l : List Chat) (a b : Nat) : Bool × List Chat :=
  pisLoop 5 l (a + 1) a b

/-- `partition_func`'s first inner scan: `for i <= j && data.Less(i, a)`. -/
def partScanI : Nat → List Chat → Nat → Nat → Nat → Nat
  | 0, _, i, _, _ => i
  | fuel+1, l, i, j, a => if i ≤ j && lessAt l i a then partScanI fuel l (i + 1) j a else i

/-- `partition_func`'s second inner scan: `for i <= j && !data.Less(j, a)`. -/
def partScanJ : Nat → List Chat → Nat → Nat → Nat → Nat
  | 0, _, _, j, _ => j
  | fuel+1, l, i, j, a => if i ≤ j && !(lessAt l j a) then partScanJ fuel l i (j - 1) a else j

/-- The main loop of `partition_func`: scan, stop when the cursors cross,
else swap and step both inward. -/
def partLoop : Nat → List Chat → Nat → Nat → Nat → List Chat × Nat × Nat
  | 0, l, i, j, _ => (l, i, j)
  | fuel+1, l, i, j, a =>
    let i1 := partScanI (j + 2) l i j a
    let j1 := partScanJ (j + 2) l i1 j a
    if j1 < i1 then (l, i1, j1)
    else partLoop fuel (lswap l i1 j1) (i1 + 1) (j1 - 1) a

/-- `partition_func(data, a, b, pivot)`: Hoare partition around the pivot
moved to `a`; returns the pivot's final slot and whether the range was
already partitioned. -/
def partitionRange (l : List Chat) (a b pivot : Nat) : List Chat × Nat × Bool :=
  let l0 := lswap l a pivot
  let i0 := partScanI b l0 (a + 1) (b - 1) a
  let j0 := partScanJ b l0 i0 (b - 1) a
  if j0 < i0 then (lswap l0 j0 a, j0, true)
  else
    let r := partLoop b (lswap l0 i0 j0) (i0 + 1) (j0 - 1) a
    (lswap r.1 r.2.2 a, r.2.2, false)

/-- `partitionEqual_func`'s scans and loop: move elements equal to the pivot
to the left; returns the first index past the equal run. -/
def peqScanI : Nat → List Chat → Nat → Nat → Nat → Nat
  | 0, _, i, _, _ => i
  | fuel+1, l, i, j, a => if i ≤ j && !(lessAt l a i) then peqScanI fuel l (i + 1) j a else i

def peqScanJ : Nat → List Chat → Nat → Nat → Nat → Nat
  | 0, _, _, j, _ => j
  | fuel+1, l, i, j, a => if i ≤ j && lessAt l a j then peqScanJ fuel l i (j - 1) a else j

def peqLoop : Nat → List Chat → Nat → Nat → Nat → List Chat × Nat
  | 0, l, i, _, _ => (l, i)
  | fuel+1, l, i, j, a =>
    let i1 := peqScanI (j + 2) l i j a
    let j1 := peqScanJ (j + 2) l i1 j a
    if j1 < i1 then (l, i1)
    else peqLoop fuel (lswap l i1 j1) (i1 + 1) (j1 - 1) a

/-- `partitionEqual_func(data, a, b, pivot)`. -/
def partitionEqualRange (l : List Chat) (a b pivot : Nat) : List Chat × Nat :=
  peqLoop b (lswap l a pivot) (a + 1) (b - 1) a

/-- `pdqsort_func(data, a, b, limit)` (`maxInsertion = 12`).  Each recursive
call of the Go function starts with `wasBalanced = wasPartitioned = true`;
the `for` loop's next iteration is the tail call carrying the updated flags. -/
def pdqsortF : Nat → List Chat → Nat → Nat → Nat → Bool → Bool → List Chat
  | 0, l, _, _, _, _, _ => l
  | fuel+1, l, a, b, limit, wasBalanced, wasPartitioned =>
    let length := b - a
    if length ≤ 12 then insertionSortRange l a b
    else if limit = 0 then heapSortRange l a b
    else
      let l0 := if !wasBalanced then breakPatterns l a b else l
      let limit0 := if !wasBalanced then limit - 1 else limit
      let pv := choosePivot l0 a b
      let l1 := if pv.2 == .decreasing then reverseRange l0 a b else l0
      let pivot1 := if pv.2 == .decreasing then (b - 1) - (pv.1 - a) else pv.1
      let hint1 := if pv.2 == .decreasing then SortHint.increasing else pv.2
      let pis :=
        if wasBalanced && wasPartitioned && hint1 == .increasing
        then partialInsSort l1 a b else (false, l1)
      if pis.1 then pis.2
      else
        let l2 := pis.2
        if decide (0 < a) && !(lessAt l2 (a - 1) pivot1) then
          let pe := partitionEqualRange l2 a b pivot1
          pdqsortF fuel pe.1 pe.2 b limit0 wasBalanced wasPartitioned
        else
          let pr := partitionRange l2 a b pivot1
          let mid := pr.2.1
          let wasPartitioned2 := pr.2.2
          let wasBalanced2 := decide (length / 8 ≤ min (mid - a) (b - mid))
          if mid - a < b - mid then
            pdqsortF fuel (pdqsortF fuel pr.1 a mid limit0 true true)
              (mid + 1) b limit0 wasBalanced2 wasPartitioned2
          else
            pdqsortF fuel (pdqsortF fuel pr.1 (mid + 1) b limit0 true true)
              a mid limit0 wasBalanced2 wasPartitioned2

/-- `sort.Slice(export.Chats, less)` (store.go:177): pdqsort over the whole
slice with `limit = bits.Len(length)`. -/
def sortSlice (l : List Chat) : List Chat :=
  pdqsortF (4 * (l.length + 2)) l 0 l.length (bitsLen l.length) true true

/-! ## Export -/

/-- The `Export` snapshot (store.go:51).  `exportedAt` stands for `s.now()`. -/
structure Export where
  exportedAt : Nat
  activeChats : Nat
  archivedChats : Nat
  chats : List Chat
deriving DecidableEq, Repr

/-- `ExportAll` (store.go:153) up to the snapshot value: the nil store and a
blank output path are errors; both statuses are loaded (errors propagate);
the counts are taken before concatenation; the concatenation is sorted with
`sort.Slice`.  (The final `MarshalIndent`/`WriteFile` serialize this value;
they are outside the claims and not modeled.) -/
def exportAll (st : Store) (now : Nat) (outputPath : String) : Except StoreErr Export :=
  match st with
  | none => .error .notConfigured
  | some fs =>
    if trimSpace outputPath = "" then .error .outputPathRequired
    else
      match loadChats fs false with
      | none => .error .decodeErr
      | some activeChats =>
        match loadChats fs true with
        | none => .error .decodeErr
        | some archivedChats =>
          .ok { exportedAt := now,
                activeChats := activeChats.length,
                archivedChats := archivedChats.length,
                chats := sortSlice (activeChats ++ archivedChats) }

/-! ## Directory and line lemmas -/

theorem dirGet_dirPut_same (d : Dirn) (n : String) (v : Bytes) :
    dirGet (dirPut d n v) n = some v := by
  induction d with
  | nil => simp [dirGet, dirPut, List.find?]
  | cons e rest ih =>
    by_cases h : e.1 == n
    · simp [dirPut, h, dirGet, List.find?]
    · simp only [dirPut, h, Bool.false_eq_true, if_false]
      simp only [dirGet, List.find?, h] at ih ⊢
      exact ih

theorem dirGet_dirDel_same (d : Dirn) (n : String) :
    dirGet (dirDel d n) n = none := by
  rw [dirGet, Option.map_eq_none', List.find?_eq_none]
  intro e he
  rw [dirDel, List.mem_filter] at he
  simpa using he.2

/-- A line split: the scanner cuts at the first newline, strips a trailing
CR, and goes on with the rest. -/
theorem splitLinesAux_line (pre : Bytes) (hpre : '\n' ∉ pre) :
    ∀ acc rest, splitLinesAux (pre ++ '\n' :: rest) acc =
      dropCR (acc ++ pre) :: splitLines rest := by
  induction pre with
  | nil => intro acc rest; simp [splitLinesAux, splitLines]
  | cons c pre ih =>
    intro acc rest
    have hc : c ≠ '\n' := fun h => hpre (h ▸ List.mem_cons_self c pre)
    rw [List.cons_append, splitLinesAux, if_neg hc,
      ih (fun h => hpre (List.mem_cons_of_mem c h)) (acc ++ [c]) rest,
      List.append_assoc]
    rfl

theorem splitLines_line (pre : Bytes) (rest : Bytes) (hpre : '\n' ∉ pre) :
    splitLines (pre ++ '\n' :: rest) = dropCR pre :: splitLines rest := by
  rw [splitLines, splitLinesAux_line pre hpre [] rest, List.nil_append]

/-- A newline-terminated prefix splits off whole lines: appending more data
only appends more lines. -/
theorem splitLinesAux_append (B : Bytes) :
    ∀ acc A, B.getLast? = some '\n' →
      splitLinesAux (B ++ A) acc = splitLinesAux B acc ++ splitLines A := by
  induction B with
  | nil => intro acc A h; simp at h
  | cons c B ih =>
    intro acc A h
    by_cases hB : B = []
    · subst hB
      simp only [List.getLast?_singleton, Option.some.injEq] at h
      subst h
      simp [splitLinesAux, splitLines]
    · have hlast : B.getLast? = some '\n' := by
        cases B with
        | nil => exact absurd rfl hB
        | cons d B2 => rw [List.getLast?_cons_cons] at h; exact h
      by_cases hc : c = '\n'
      · subst hc
        rw [List.cons_append, splitLinesAux, if_pos rfl, splitLinesAux, if_pos rfl,
          List.cons_append, ih [] A hlast]
      · rw [List.cons_append, splitLinesAux, if_neg hc, splitLinesAux, if_neg hc,
          ih (acc ++ [c]) A hlast]

theorem splitLines_append (B A : Bytes) (h : B.getLast? = some '\n') :
    splitLines (B ++ A) = splitLines B ++ splitLines A := by
  rw [splitLines, splitLines, splitLinesAux_append B [] A h]

theorem readMessagesLines_append (L1 L2 : List Bytes) (M1 M2 : List Message)
    (h1 : readMessagesLines L1 = some M1) (h2 : readMessagesLines L2 = some M2) :
    readMessagesLines (L1 ++ L2) = some (M1 ++ M2) := by
  induction L1 generalizing M1 with
  | nil =>
    rw [readMessagesLines] at h1
    cases h1
    simpa using h2
  | cons l L1 ih =>
    rw [readMessagesLines] at h1
    rw [List.cons_append, readMessagesLines]
    cases hu : unmarshalMessage l with
    | none => rw [hu, Option.none_bind] at h1; cases h1
    | some m =>
      rw [hu, Option.some_bind] at h1
      cases hr : readMessagesLines L1 with
      | none => rw [hr, Option.map_none'] at h1; cases h1
      | some M1a =>
        rw [hr, Option.map_some'] at h1
        cases h1
        rw [Option.some_bind, ih M1a hr, Option.map_some', List.cons_append]

theorem trimJsonl_append (base : List Char) :
    trimJsonl (base ++ jsonlSuffix) = some base := by
  rw [trimJsonl, if_pos, List.length_append]
  · congr 1
    have h6 : jsonlSuffix.length = 6 := rfl
    rw [h6, Nat.add_sub_cancel, List.take_left]
  · have : jsonlSuffix <:+ base ++ jsonlSuffix := List.suffix_append base jsonlSuffix
    exact List.isSuffixOf_iff_suffix.mpr this

theorem sessionFile_data (sid : String) :
    (sessionFile sid).data = (sanitizeSessionID sid).data ++ jsonlSuffix := by
  rw [sessionFile, String.data_append]
  rfl

theorem trimJsonl_sessionFile (sid : String) :
    trimJsonl (sessionFile sid).data = some (sanitizeSessionID sid).data := by
  rw [sessionFile_data, trimJsonl_append]

/-! ## Stable insertion sort, functionally

`insertionSort_func` sifts each element left past strictly greater ones and
stops at the first element not greater — i.e. it inserts after all elements
with an equal or smaller key.  `insEq` is that insertion as a list function;
the positional loops are proved equal to it below. -/

def chatLtB (x y : Chat) : Bool := strLt x.sessionID y.sessionID

def insEq (x : Chat) : List Chat → List Chat
  | [] => [x]
  | y :: l => if chatLtB x y = true then x :: y :: l else y :: insEq x l

def stableSortFrom (pre : List Chat) (l : List Chat) : List Chat :=
  l.foldl (fun acc x => insEq x acc) pre

def stableSort (l : List Chat) : List Chat := stableSortFrom [] l

/-- Sorted ascending by session id (the `ExportAll` comparison). -/
def ChatsSorted (l : List Chat) : Prop :=
  l.Pairwise (fun x y => x.sessionID ≤ y.sessionID)

theorem insEq_length (x : Chat) (l : List Chat) : (insEq x l).length = l.length + 1 := by
  induction l with
  | nil => rfl
  | cons y l ih =>
    rw [insEq]
    by_cases hxy : chatLtB x y = true
    · rw [if_pos hxy]; rfl
    · rw [if_neg hxy, List.length_cons, List.length_cons, ih]

theorem mem_insEq (x z : Chat) (l : List Chat) : z ∈ insEq x l ↔ z = x ∨ z ∈ l := by
  induction l with
  | nil => simp [insEq]
  | cons y l ih =>
    rw [insEq]
    by_cases hxy : chatLtB x y = true
    · rw [if_pos hxy]
      simp only [List.mem_cons]
    · rw [if_neg hxy]
      simp only [List.mem_cons, ih]
      tauto

theorem insEq_append_of_lt (x y : Chat) (p : List Chat) (h : chatLtB x y = true) :
    insEq x (p ++ [y]) = insEq x p ++ [y] := by
  induction p with
  | nil => simp [insEq, h]
  | cons z p ih =>
    rw [List.cons_append, insEq, insEq]
    by_cases hxz : chatLtB x z = true
    · rw [if_pos hxz, if_pos hxz]
      simp
    · rw [if_neg hxz, if_neg hxz, ih, List.cons_append]

theorem insEq_all_le (x : Chat) (l : List Chat) (h : ∀ z ∈ l, chatLtB x z = false) :
    insEq x l = l ++ [x] := by
  induction l with
  | nil => rfl
  | cons y l ih =>
    rw [insEq, if_neg (by simp [h y (List.mem_cons_self y l)]),
      ih (fun z hz => h z (List.mem_cons_of_mem y hz)), List.cons_append]

theorem insEq_sorted (x : Chat) (l : List Chat) (h : ChatsSorted l) :
    ChatsSorted (insEq x l) := by
  induction l with
  | nil =>
    rw [insEq]
    exact List.pairwise_singleton _ x
  | cons y l ih =>
    rw [ChatsSorted, List.pairwise_cons] at h
    rw [insEq]
    by_cases hxy : chatLtB x y = true
    · rw [if_pos hxy]
      have hxyle : x.sessionID ≤ y.sessionID := le_of_lt ((strLt_iff _ _).mp hxy)
      rw [ChatsSorted, List.pairwise_cons]
      refine ⟨?_, List.pairwise_cons.mpr ⟨h.1, h.2⟩⟩
      intro z hz
      rcases List.mem_cons.mp hz with rfl | hz
      · exact hxyle
      · exact le_trans hxyle (h.1 z hz)
    · rw [if_neg hxy]
      have hyx : y.sessionID ≤ x.sessionID :=
        le_of_not_lt (fun hc => hxy ((strLt_iff _ _).mpr hc))
      rw [ChatsSorted, List.pairwise_cons]
      refine ⟨?_, ih h.2⟩
      intro z hz
      rcases (mem_insEq x z l).mp hz with rfl | hz
      · exact hyx
      · exact h.1 z hz

theorem insEq_filter_eq (x : Chat) (l : List Chat) (h : ChatsSorted l) :
    (insEq x l).filter (fun c => c.sessionID == x.sessionID) =
      l.filter (fun c => c.sessionID == x.sessionID) ++ [x] := by
  induction l with
  | nil => simp [insEq]
  | cons y l ih =>
    rw [ChatsSorted, List.pairwise_cons] at h
    rw [insEq]
    by_cases hxy : chatLtB x y = true
    · rw [if_pos hxy]
      have hlt := (strLt_iff x.sessionID y.sessionID).mp hxy
      have hnil : (y :: l).filter (fun c => c.sessionID == x.sessionID) = [] := by
        rw [List.filter_eq_nil_iff]
        intro z hz
        have hyz : y.sessionID ≤ z.sessionID := by
          rcases List.mem_cons.mp hz with rfl | hz2
          · exact le_refl _
          · exact h.1 z hz2
        have hne : z.sessionID ≠ x.sessionID := by
          intro he
          rw [he] at hyz
          exact absurd hlt (not_lt.mpr hyz)
        simp [hne]
      rw [hnil, List.filter_cons, if_pos (by simp), hnil]
      rfl
    · rw [if_neg hxy, List.filter_cons, List.filter_cons, ih h.2]
      by_cases hy : (y.sessionID == x.sessionID) = true
      · rw [if_pos hy, if_pos hy, List.cons_append]
      · rw [if_neg hy, if_neg hy]

theorem insEq_filter_ne (x : Chat) (l : List Chat) (k : String)
    (hk : (x.sessionID == k) = false) :
    (insEq x l).filter (fun c => c.sessionID == k) =
      l.filter (fun c => c.sessionID == k) := by
  induction l with
  | nil => simp [insEq, hk]
  | cons y l ih =>
    rw [insEq]
    by_cases hxy : chatLtB x y = true
    · rw [if_pos hxy, List.filter_cons, if_neg (by simp [hk])]
    · rw [if_neg hxy, List.filter_cons, List.filter_cons, ih]

theorem stableSortFrom_sorted (l : List Chat) :
    ∀ pre, ChatsSorted pre → ChatsSorted (stableSortFrom pre l) := by
  induction l with
  | nil => intro pre h; exact h
  | cons x l ih =>
    intro pre h
    exact ih (insEq x pre) (insEq_sorted x pre h)

theorem stableSortFrom_filter (l : List Chat) :
    ∀ pre, ChatsSorted pre → ∀ k,
      (stableSortFrom pre l).filter (fun c => c.sessionID == k) =
        pre.filter (fun c => c.sessionID == k) ++ l.filter (fun c => c.sessionID == k) := by
  induction l with
  | nil => intro pre _ k; simp [stableSortFrom]
  | cons x l ih =>
    intro pre h k
    have hstep := ih (insEq x pre) (insEq_sorted x pre h) k
    rw [show stableSortFrom pre (x :: l) = stableSortFrom (insEq x pre) l from rfl, hstep,
      List.filter_cons]
    by_cases hx : (x.sessionID == k) = true
    · have hxk : x.sessionID = k := by simpa using hx
      subst hxk
      rw [insEq_filter_eq x pre h, if_pos hx, List.append_assoc, List.singleton_append]
    · rw [insEq_filter_ne x pre k (by simpa using hx), if_neg hx]

theorem stableSort_sorted (l : List Chat) : ChatsSorted (stableSort l) :=
  stableSortFrom_sorted l [] List.Pairwise.nil

theorem stableSort_filter (l : List Chat) (k : String) :
    (stableSort l).filter (fun c => c.sessionID == k) =
      l.filter (fun c => c.sessionID == k) := by
  rw [stableSort, stableSortFrom_filter l [] List.Pairwise.nil k]
  rfl

/-! ## The positional insertion sort equals the stable functional one -/

theorem elemAt_append (p : List Chat) (x : Chat) (s : List Chat) :
    elemAt (p ++ x :: s) p.length = x := by
  induction p with
  | nil => rfl
  | cons e p ih => exact ih

theorem lswap_cons (e : Chat) (L : List Chat) (i j : Nat) :
    lswap (e :: L) (i + 1) (j + 1) = e :: lswap L i j := rfl

theorem lswap_adjacent (p : List Chat) (y x : Chat) (s : List Chat) :
    lswap (p ++ y :: x :: s) p.length (p.length + 1) = p ++ x :: y :: s := by
  induction p with
  | nil => rfl
  | cons e p ih => rw [List.cons_append, List.length_cons, lswap_cons, ih, List.cons_append]

theorem lessAt_append (p : List Chat) (y x : Chat) (s : List Chat) :
    lessAt (p ++ y :: x :: s) (p.length + 1) p.length = chatLtB x y := by
  rw [lessAt, chatLtB]
  have h1 : elemAt (p ++ y :: x :: s) (p.length + 1) = x := by
    have h2 := elemAt_append (p ++ [y]) x s
    rw [List.append_assoc, List.singleton_append, List.length_append,
      List.length_singleton] at h2
    exact h2
  rw [h1, elemAt_append p y (x :: s)]

/-- The inner loop of `insertionSort_func` performs exactly the stable
insertion of the element at position `pre.length` into the sorted prefix. -/
theorem insInner_spec (pre : List Chat) :
    ∀ (x : Chat) (suf : List Chat), ChatsSorted pre →
      insInner pre.length (pre ++ x :: suf) 0 pre.length = insEq x pre ++ suf := by
  induction pre using List.reverseRecOn with
  | nil => intro x suf _; rfl
  | append_singleton p y ih =>
    intro x suf hs
    rw [ChatsSorted, List.pairwise_append] at hs
    have hp : ChatsSorted p := hs.1
    have hpy : ∀ z ∈ p, z.sessionID ≤ y.sessionID := by
      intro z hz
      exact hs.2.2 z hz y (List.mem_singleton_self y)
    rw [List.length_append, List.length_singleton, List.append_assoc,
      List.singleton_append, insInner, Nat.add_sub_cancel]
    by_cases hxy : chatLtB x y = true
    · have hcond : (decide (0 < p.length + 1) &&
          lessAt (p ++ y :: x :: suf) (p.length + 1) p.length) = true := by
        rw [lessAt_append, hxy, Bool.and_true]
        exact decide_eq_true (Nat.succ_pos p.length)
      rw [if_pos hcond, lswap_adjacent, ih x (y :: suf) hp, insEq_append_of_lt x y p hxy,
        List.append_assoc, List.singleton_append]
    · have hfalse : chatLtB x y = false := by
        revert hxy
        cases chatLtB x y <;> simp
      have hcond : ¬ ((decide (0 < p.length + 1) &&
          lessAt (p ++ y :: x :: suf) (p.length + 1) p.length) = true) := by
        rw [lessAt_append]
        simp [hfalse]
      have hall : ∀ z ∈ p ++ [y], chatLtB x z = false := by
        intro z hz
        rcases List.mem_append.mp hz with hz | hz
        · have hzy := hpy z hz
          have hyx : y.sessionID ≤ x.sessionID :=
            le_of_not_lt (fun hc => hxy ((strLt_iff _ _).mpr hc))
          exact (strLt_eq_false_iff _ _).mpr (le_trans hzy hyx)
        · rw [List.mem_singleton.mp hz]
          exact hfalse
      rw [if_neg hcond, insEq_all_le x (p ++ [y]) hall]
      simp [List.append_assoc]

/-- The outer loop of `insertionSort_func`, started after a sorted prefix,
folds `insEq` over the remaining elements. -/
theorem insOuter_spec (rest : List Chat) :
    ∀ (pre : List Chat) (fuel : Nat), ChatsSorted pre → rest.length ≤ fuel →
      insOuter fuel (pre ++ rest) 0 pre.length (pre.length + rest.length) =
        stableSortFrom pre rest := by
  induction rest with
  | nil =>
    intro pre fuel _ _
    cases fuel with
    | zero => simp [insOuter, stableSortFrom]
    | succ f => simp [insOuter, stableSortFrom]
  | cons x rest ih =>
    intro pre fuel hpre hfuel
    cases fuel with
    | zero => exact absurd hfuel (by simp)
    | succ f =>
      rw [insOuter, if_pos (by simp [Nat.lt_add_of_pos_right])]
      rw [insInner_spec pre x rest hpre]
      have hlen := insEq_length x pre
      have hb : pre.length + (x :: rest).length = (insEq x pre).length + rest.length := by
        rw [hlen, List.length_cons]; omega
      rw [hb, show pre.length + 1 = (insEq x pre).length from hlen.symm]
      exact ih (insEq x pre) f (insEq_sorted x pre hpre) (by
        rw [List.length_cons] at hfuel; omega)

/-- `insertionSort_func` over the whole slice is the stable insertion sort. -/
theorem insertionSortRange_eq_stableSort (l : List Chat) :
    insertionSortRange l 0 l.length = stableSort l := by
  cases l with
  | nil => rfl
  | cons x l =>
    have h := insOuter_spec l [x] (l.length + 1) (List.pairwise_singleton _ x)
      (Nat.le_succ l.length)
    rw [List.singleton_append, List.length_singleton, Nat.add_comm 1 l.length] at h
    show insOuter (l.length + 1) (x :: l) 0 1 (l.length + 1) = stableSort (x :: l)
    rw [h]
    rfl

/-- `sort.Slice` on at most 12 elements takes pdqsort's insertion-sort
shortcut (`maxInsertion = 12`). -/
theorem sortSlice_small (l : List Chat) (h : l.length ≤ 12) :
    sortSlice l = stableSort l := by
  rw [sortSlice]
  obtain ⟨k, hk⟩ : ∃ k, 4 * (l.length + 2) = k + 1 := ⟨4 * (l.length + 2) - 1, by omega⟩
  rw [hk, pdqsortF, if_pos (by simpa using h)]
  exact insertionSortRange_eq_stableSort l

/-! ## Record / load helpers -/

theorem dropCR_of_last_ne (l : Bytes) (h : l.getLast? ≠ some '\r') : dropCR l = l := by
  rw [dropCR, if_neg h]

theorem readMessages_one (line : Bytes) (m : Message) (hnl : '\n' ∉ line)
    (hlast : line.getLast? = some '}') (hu : unmarshalMessage line = some m) :
    readMessages (line ++ ['\n']) = some [m] := by
  rw [readMessages, show line ++ ['\n'] = line ++ '\n' :: [] from rfl,
    splitLines_line line [] hnl,
    dropCR_of_last_ne line (by rw [hlast]; intro h; cases h)]
  rw [show splitLines [] = [] from rfl, readMessagesLines, hu, Option.some_bind,
    readMessagesLines, Option.map_some']

theorem readMessages_two (l1 l2 : Bytes) (m1 m2 : Message)
    (h1nl : '\n' ∉ l1) (h2nl : '\n' ∉ l2)
    (h1last : l1.getLast? = some '}') (h2last : l2.getLast? = some '}')
    (hu1 : unmarshalMessage l1 = some m1) (hu2 : unmarshalMessage l2 = some m2) :
    readMessages ((l1 ++ ['\n']) ++ (l2 ++ ['\n'])) = some [m1, m2] := by
  rw [readMessages, List.append_assoc, List.singleton_append,
    splitLines_line l1 (l2 ++ ['\n']) h1nl,
    dropCR_of_last_ne l1 (by rw [h1last]; intro h; cases h),
    show l2 ++ ['\n'] = l2 ++ '\n' :: [] from rfl,
    splitLines_line l2 [] h2nl,
    dropCR_of_last_ne l2 (by rw [h2last]; intro h; cases h)]
  rw [show splitLines [] = [] from rfl, readMessagesLines, hu1, Option.some_bind,
    readMessagesLines, hu2, Option.some_bind, readMessagesLines, Option.map_some',
    Option.map_some']

theorem recordMessageF_ok (d : Dirn) (ar : Option Dirn) (sid ts dir : String)
    (tm : Nat) (p : Bytes) (line : Bytes) (hsid : sid ≠ "")
    (hm : marshalMessage ⟨sid, ts, dir, tm, p⟩ = some line) :
    recordMessageF ⟨some d, ar⟩ sid ts dir tm p =
      (none, ⟨some (dirPut d (sessionFile sid)
        (((dirGet d (sessionFile sid)).getD []) ++ line ++ ['\n'])), ar⟩) := by
  rw [recordMessageF, if_neg hsid, hm]

theorem loadChatsEntries_single (sid : String) (content : Bytes) (M : List Message)
    (arch : Bool) (hr : readMessages content = some M) :
    loadChatsEntries arch [(sessionFile sid, content)] =
      some [⟨sanitizeSessionID sid, arch, M⟩] := by
  rw [loadChatsEntries, trimJsonl_sessionFile, hr]
  simp [strMkData, show loadChatsEntries arch [] = some [] from rfl]

/-! ## Load-failure lemmas -/

theorem readMessagesLines_none (L : List Bytes)
    (h : ∃ l ∈ L, unmarshalMessage l = none) : readMessagesLines L = none := by
  induction L with
  | nil => simp at h
  | cons l L ih =>
    obtain ⟨l0, hl0, hbad⟩ := h
    rcases List.mem_cons.mp hl0 with rfl | hl0
    · rw [readMessagesLines, hbad, Option.none_bind]
    · rw [readMessagesLines, ih ⟨l0, hl0, hbad⟩]
      cases unmarshalMessage l <;> rfl

theorem loadChatsEntries_bad (d : Dirn) (arch : Bool) (name : String) (content : Bytes)
    (base : List Char) (hmem : (name, content) ∈ d)
    (hjs : trimJsonl name.data = some base) (hbad : readMessages content = none) :
    loadChatsEntries arch d = none := by
  induction d with
  | nil => simp at hmem
  | cons e d ih =>
    rcases List.mem_cons.mp hmem with heq | hmem2
    · cases heq.symm
      rw [loadChatsEntries, hjs, hbad]
    · obtain ⟨n0, c0⟩ := e
      rw [loadChatsEntries]
      cases hj0 : trimJsonl n0.data with
      | none => exact ih hmem2
      | some b0 =>
        cases hr0 : readMessages c0 with
        | none => rfl
        | some M0 => rw [ih hmem2]; rfl

theorem mem_insertByName (e f : String × Bytes) (d : Dirn) :
    e ∈ insertByName f d ↔ e = f ∨ e ∈ d := by
  induction d with
  | nil => simp [insertByName]
  | cons g d ih =>
    rw [insertByName]
    by_cases hc : strLt f.1 g.1 = true
    · rw [if_pos hc]
      simp only [List.mem_cons]
    · rw [if_neg hc]
      simp only [List.mem_cons, ih]
      tauto

theorem mem_readDirSorted (e : String × Bytes) (d : Dirn) :
    e ∈ readDirSorted d ↔ e ∈ d := by
  induction d with
  | nil => simp [readDirSorted]
  | cons f d ih =>
    rw [readDirSorted, List.foldr_cons, mem_insertByName]
    rw [readDirSorted] at ih
    rw [ih, List.mem_cons]

/-! ## Claim theorems -/

/-- C7: `RecordMessage` with an empty session identifier returns the
invalid-argument error ("session id is required") and leaves the
store's state completely unchanged — nothing is written. -/
theorem C7_empty_session_id (fs : FS) (ts dir : String) (tm : Nat) (p : Bytes) :
    recordMessageF fs "" ts dir tm p = (some .sessionRequired, fs) ∧
    recordMessage (some fs) "" ts dir tm p = (some .sessionRequired, some fs) := by
  have h : recordMessageF fs "" ts dir tm p = (some .sessionRequired, fs) := by
    rw [recordMessageF, if_pos rfl]
  exact ⟨h, by rw [recordMessage, h]⟩

/-- C8: a store built from a blank root location is the nil store; on it
`RecordMessage` and `ArchiveSession` are no-ops returning no error and
changing nothing, while `ExportAll` fails with "chat storage is not
configured". -/
theorem C8_disabled_store (root : String) (disk : FS) (h : trimSpace root = "")
    (sid ts dir : String) (tm : Nat) (p : Bytes) (now : Nat) (path : String) :
    newStore root disk = none ∧
    recordMessage (newStore root disk) sid ts dir tm p = (none, newStore root disk) ∧
    archiveSessionS (newStore root disk) sid = (none, newStore root disk) ∧
    exportAll (newStore root disk) now path = .error .notConfigured := by
  have hn : newStore root disk = none := by rw [newStore, if_pos h]
  rw [hn]
  exact ⟨rfl, rfl, rfl, rfl⟩

/-- C8 witness: a root of blanks disables the store. -/
theorem C8_disabled_store_witness :
    newStore "  " ⟨some [], some []⟩ = none ∧
    recordMessage (newStore "  " ⟨some [], some []⟩) "s" "" "request" 0 [] =
      (none, newStore "  " ⟨some [], some []⟩) ∧
    archiveSessionS (newStore "  " ⟨some [], some []⟩) "s" =
      (none, newStore "  " ⟨some [], some []⟩) ∧
    exportAll (newStore "  " ⟨some [], some []⟩) 0 "out" = .error .notConfigured :=
  C8_disabled_store "  " ⟨some [], some []⟩ (by decide) "s" "" "request" 0 [] 0 "out"

/-- C2: archiving a session whose archived log already exists appends the
active bytes after the archived ones (`appendFile dest source`) and removes
the active log; on record level the merged log reads back as
`[b1, b2, a1, a2]` — earlier archived records first, never reordered. -/
theorem C2_archive_merge_order (sid : String) (hsid : sid ≠ "")
    (da db : Dirn) (A B : Bytes) (a1 a2 b1 b2 : Message)
    (hA : dirGet da (sessionFile sid) = some A)
    (hB : dirGet db (sessionFile sid) = some B)
    (hrA : readMessages A = some [a1, a2])
    (hrB : readMessages B = some [b1, b2])
    (hBnl : B.getLast? = some '\n') :
    archiveSession ⟨some da, some db⟩ sid =
      (none, ⟨some (dirDel da (sessionFile sid)),
              some (dirPut db (sessionFile sid) (B ++ A))⟩) ∧
    dirGet (dirPut db (sessionFile sid) (B ++ A)) (sessionFile sid) = some (B ++ A) ∧
    readMessages (B ++ A) = some [b1, b2, a1, a2] ∧
    dirGet (dirDel da (sessionFile sid)) (sessionFile sid) = none := by
  refine ⟨?_, dirGet_dirPut_same db _ _, ?_, dirGet_dirDel_same da _⟩
  · rw [archiveSession, archiveSessionF, if_neg hsid]
    simp only [noFaults, Bool.false_eq_true, if_false, Option.some_bind, hA, hB]
    rw [Option.map_some', Option.map_some']
  · rw [readMessages, splitLines_append B A hBnl]
    rw [readMessages] at hrA hrB
    exact readMessagesLines_append _ _ _ _ hrB hrA

/-- C5: whatever file-system step of `ArchiveSession` fails (stat of either
path, the read / open / write of the merge, the remove, the rename), the call
surfaces the error and the active-status directory is untouched — in
particular the source log still exists; the source is only deleted after the
append to the destination fully succeeded. -/
theorem C5_archive_failure_preserves_active (flt : ArchiveFaults) (fs : FS)
    (sid : String) (e : StoreErr) (fs2 : FS)
    (h : archiveSessionF flt fs sid = (some e, fs2)) :
    fs2.active = fs.active := by
  simp only [archiveSessionF] at h
  repeat' split at h
  all_goals injection h with h1 h2
  all_goals first
    | exact Option.noConfusion h1
    | (subst h2; rfl)

/-- C5 witness: a write failure in the merge path reports the error and
leaves the active log in place. -/
theorem C5_archive_failure_preserves_active_witness :
    archiveSessionF ⟨false, false, false, false, true, false, false⟩
      ⟨some [("s.jsonl", ['x'])], some [("s.jsonl", ['y'])]⟩ "s" =
      (some .writeErr, ⟨some [("s.jsonl", ['x'])], some [("s.jsonl", ['y'])]⟩) ∧
    (⟨some [("s.jsonl", ['x'])], some [("s.jsonl", ['y'])]⟩ : FS).active =
      (⟨some [("s.jsonl", ['x'])], some [("s.jsonl", ['y'])]⟩ : FS).active :=
  ⟨by decide,
   C5_archive_failure_preserves_active ⟨false, false, false, false, true, false, false⟩
     ⟨some [("s.jsonl", ['x'])], some [("s.jsonl", ['y'])]⟩ "s" .writeErr
     ⟨some [("s.jsonl", ['x'])], some [("s.jsonl", ['y'])]⟩ (by decide)⟩

/-- C9: archiving is idempotent: a successful `ArchiveSession` leaves a state
with no active log for the session, so an immediately repeated call succeeds
and changes nothing; and when no active log existed the first call was
already the identity. -/
theorem C9_archive_idempotent (fs : FS) (sid : String)
    (hok : (archiveSession fs sid).1 = none) :
    ((fs.active.bind (fun d => dirGet d (sessionFile sid)) = none →
        (archiveSession fs sid).2 = fs) ∧
      archiveSession (archiveSession fs sid).2 sid =
        (none, (archiveSession fs sid).2)) := by
  by_cases hs0 : sid = ""
  · subst hs0
    exact ⟨fun _ => rfl, rfl⟩
  · cases hsrc : fs.active.bind (fun d => dirGet d (sessionFile sid)) with
    | none =>
      have hval : archiveSession fs sid = (none, fs) := by
        rw [archiveSession, archiveSessionF, if_neg hs0]
        simp only [noFaults, Bool.false_eq_true, if_false, hsrc]
      rw [hval]
      exact ⟨fun _ => rfl, hval⟩
    | some src =>
      obtain ⟨dA, hdA⟩ : ∃ dA, fs.active = some dA := by
        cases hfa : fs.active with
        | none => rw [hfa, Option.none_bind] at hsrc; cases hsrc
        | some dA => exact ⟨dA, rfl⟩
      rw [hdA, Option.some_bind] at hsrc
      cases hdst : fs.archived.bind (fun d => dirGet d (sessionFile sid)) with
      | some dst =>
        obtain ⟨dB, hdB⟩ : ∃ dB, fs.archived = some dB := by
          cases hfb : fs.archived with
          | none => rw [hfb, Option.none_bind] at hdst; cases hdst
          | some dB => exact ⟨dB, rfl⟩
        rw [hdB, Option.some_bind] at hdst
        have hval : archiveSession fs sid =
            (none, ⟨some (dirDel dA (sessionFile sid)),
                    some (dirPut dB (sessionFile sid) (dst ++ src))⟩) := by
          rw [archiveSession, archiveSessionF, if_neg hs0]
          simp only [noFaults, Bool.false_eq_true, if_false, hdA, hdB,
            Option.some_bind, hsrc, hdst, Option.map_some']
        rw [hval]
        refine ⟨fun hcon => absurd hcon (by simp), ?_⟩
        rw [archiveSession, archiveSessionF, if_neg hs0]
        simp only [noFaults, Bool.false_eq_true, if_false, Option.some_bind,
          dirGet_dirDel_same]
      | none =>
        obtain ⟨dB, hdB⟩ : ∃ dB, fs.archived = some dB := by
          cases hfb : fs.archived with
          | none =>
            rw [archiveSession, archiveSessionF, if_neg hs0] at hok
            simp [noFaults, hdA, hsrc, hfb] at hok
          | some dB => exact ⟨dB, rfl⟩
        rw [hdB, Option.some_bind] at hdst
        have hval : archiveSession fs sid =
            (none, ⟨some (dirDel dA (sessionFile sid)),
                    some (dirPut dB (sessionFile sid) src)⟩) := by
          rw [archiveSession, archiveSessionF, if_neg hs0]
          simp only [noFaults, Bool.false_eq_true, if_false, hdA, hdB,
            Option.some_bind, hsrc, hdst, Option.map_some', Bool.false_or]
          rw [if_neg (by simp)]
        rw [hval]
        refine ⟨fun hcon => absurd hcon (by simp), ?_⟩
        rw [archiveSession, archiveSessionF, if_neg hs0]
        simp only [noFaults, Bool.false_eq_true, if_false, Option.some_bind,
          dirGet_dirDel_same]

/-- C9 witness: archiving a session with one active log, twice. -/
theorem C9_archive_idempotent_witness :
    ((⟨some [("s.jsonl", ['x'])], some []⟩ : FS).active.bind
        (fun d => dirGet d (sessionFile "s")) = none →
      (archiveSession ⟨some [("s.jsonl", ['x'])], some []⟩ "s").2 =
        ⟨some [("s.jsonl", ['x'])], some []⟩) ∧
    archiveSession (archiveSession ⟨some [("s.jsonl", ['x'])], some []⟩ "s").2 "s" =
      (none, (archiveSession ⟨some [("s.jsonl", ['x'])], some []⟩ "s").2) :=
  C9_archive_idempotent ⟨some [("s.jsonl", ['x'])], some []⟩ "s" (by decide)

/-- C6: a missing status directory makes `loadChats` return an empty list
with no error (for either status), while a single undecodable log line in any
enumerated `.jsonl` file fails the entire load — no partial result. -/
theorem C6_load_missing_dir_and_malformed (ar ad : Option Dirn) (d : Dirn)
    (x : Option Dirn) (name : String) (content : Bytes) (base : List Char)
    (hmem : (name, content) ∈ d) (hjs : trimJsonl name.data = some base)
    (hbad : ∃ l ∈ splitLines content, unmarshalMessage l = none) :
    loadChats ⟨none, ar⟩ false = some [] ∧
    loadChats ⟨ad, none⟩ true = some [] ∧
    loadChats ⟨some d, x⟩ false = none := by
  refine ⟨rfl, rfl, ?_⟩
  rw [loadChats]
  exact loadChatsEntries_bad (readDirSorted d) false name content base
    ((mem_readDirSorted _ _).mpr hmem) hjs
    (by rw [readMessages]; exact readMessagesLines_none _ hbad)

/-- C6 witness: a one-file directory whose line `oops` does not decode. -/
theorem C6_load_missing_dir_and_malformed_witness :
    loadChats ⟨none, some []⟩ false = some [] ∧
    loadChats ⟨some [], none⟩ true = some [] ∧
    loadChats ⟨some [("s.jsonl", "oops\n".data)], some []⟩ false = none :=
  C6_load_missing_dir_and_malformed (some []) (some []) [("s.jsonl", "oops\n".data)]
    (some []) "s.jsonl" ("oops\n".data) ("s".data) (by decide) (by decide)
    ⟨"oops".data, by decide, by decide⟩

/-- C3 (amended): recording a message whose payload is already in canonical
compact form and whose session id is sanitization-invariant, then loading the
active corpus, yields exactly one chat for that session containing exactly
the recorded message, payload bytes identical. -/
theorem C3_record_then_load_roundtrip (sid ts dir : String) (tm : Nat) (v : JVal)
    (ar : Option Dirn) (hsid : sid ≠ "") (hsan : sanitizeSessionID sid = sid)
    (hwf : wfV v = true) :
    ∃ fs1 : FS,
      recordMessage (some ⟨some [], ar⟩) sid ts dir tm (renderV v) = (none, some fs1) ∧
      loadChats fs1 false =
        some [⟨sid, false, [⟨sid, ts, dir, tm, renderV v⟩]⟩] := by
  obtain ⟨line, hmar, hunm, hnl, hlast⟩ := marshalMessage_roundtrip sid ts dir tm v hwf
  have hrec := recordMessageF_ok [] ar sid ts dir tm (renderV v) line hsid hmar
  rw [show dirGet [] (sessionFile sid) = none from rfl] at hrec
  rw [show ((none : Option Bytes).getD []) ++ line ++ ['\n'] = line ++ ['\n'] by simp,
    show dirPut [] (sessionFile sid) (line ++ ['\n']) =
      [(sessionFile sid, line ++ ['\n'])] from rfl] at hrec
  refine ⟨⟨some [(sessionFile sid, line ++ ['\n'])], ar⟩, ?_, ?_⟩
  · simp only [recordMessage, hrec]
  · rw [show loadChats ⟨some [(sessionFile sid, line ++ ['\n'])], ar⟩ false =
      loadChatsEntries false (readDirSorted [(sessionFile sid, line ++ ['\n'])]) from rfl]
    rw [show readDirSorted [(sessionFile sid, line ++ ['\n'])] =
      [(sessionFile sid, line ++ ['\n'])] from rfl]
    rw [loadChatsEntries_single sid (line ++ ['\n'])
      [⟨sid, ts, dir, tm, renderV v⟩] false
      (readMessages_one line ⟨sid, ts, dir, tm, renderV v⟩ hnl hlast hunm), hsan]

/-- C3 witness: session `s`, payload `[7]`. -/
theorem C3_record_then_load_roundtrip_witness :
    ∃ fs1 : FS,
      recordMessage (some ⟨some [], some []⟩) "s" "t" "request" 5
        (renderV (.jarr (.jcons (.jnum ['7']) .jnil))) = (none, some fs1) ∧
      loadChats fs1 false =
        some [⟨"s", false, [⟨"s", "t", "request", 5,
          renderV (.jarr (.jcons (.jnum ['7']) .jnil))⟩]⟩] :=
  C3_record_then_load_roundtrip "s" "t" "request" 5
    (.jarr (.jcons (.jnum ['7']) .jnil)) (some [])
    (by decide) (by decide) (by decide)

/-- C3 counterexample: the payload `[1, 2]` is legal JSON but not compact;
`RecordMessage` succeeds, yet the loaded payload is `[1,2]` — the bytes are
not preserved exactly, so the unconditional round-trip claim is false. -/
theorem C3_record_then_load_counterexample :
    (recordMessage (some ⟨some [], some []⟩) "s" "" "request" 0 ("[1, 2]".data)).1 =
      none ∧
    ((recordMessage (some ⟨some [], some []⟩) "s" "" "request" 0
        ("[1, 2]".data)).2.bind (fun fs => loadChats fs false)) =
      some [⟨"s", false, [⟨"s", "", "request", 0, "[1,2]".data⟩]⟩] ∧
    "[1,2]".data ≠ "[1, 2]".data := by
  refine ⟨rfl, ?_, by decide⟩
  decide

/-- C4 (amended): `RecordMessage` does interpret the payload:
`json.Marshal` validates it as JSON, so an invalid payload fails the call
with the state unchanged, and a valid payload is stored in compacted —
not verbatim — form inside the marshalled line. -/
theorem C4_payload_validated_not_verbatim (fs : FS) (sid ts dir : String) (tm : Nat)
    (p : Bytes) (hsid : sid ≠ "") :
    (marshalPayload p = none →
      recordMessageF fs sid ts dir tm p = (some .marshalErr, fs)) ∧
    (∀ c, marshalPayload p = some c → ∀ d, fs.active = some d →
      recordMessageF fs sid ts dir tm p =
        (none, { fs with active := some (dirPut d (sessionFile sid)
          (((dirGet d (sessionFile sid)).getD []) ++
            (['{'] ++ keyColon "sessionId" ++ quoteStr sid ++
             (if ts = "" then [] else [','] ++ keyColon "toolset" ++ quoteStr ts) ++
             [','] ++ keyColon "direction" ++ quoteStr dir ++
             [','] ++ keyColon "timestamp" ++ ('"' :: natDecimal tm ++ ['"']) ++
             [','] ++ keyColon "payload" ++ c ++ ['}']) ++ ['\n'])) })) := by
  constructor
  · intro hm
    rw [recordMessageF, if_neg hsid]
    simp only [marshalMessage]
    rw [hm, Option.map_none']
  · intro c hm d hd
    rw [recordMessageF, if_neg hsid]
    simp only [marshalMessage]
    rw [hm, Option.map_some', hd]

/-- C4 witness: the payload `hi` is rejected (nothing written), while the
valid payload `[1, 2]` is stored as the compact `[1,2]`. -/
theorem C4_payload_validated_not_verbatim_witness :
    recordMessageF ⟨some [], some []⟩ "s" "" "request" 0 ("hi".data) =
      (some .marshalErr, ⟨some [], some []⟩) ∧
    recordMessageF ⟨some [], some []⟩ "s" "" "request" 0 ("[1, 2]".data) =
      (none, { (⟨some [], some []⟩ : FS) with active := some (dirPut []
        (sessionFile "s")
        (((dirGet [] (sessionFile "s")).getD []) ++
          (['{'] ++ keyColon "sessionId" ++ quoteStr "s" ++
           (if ("" : String) = "" then [] else
             [','] ++ keyColon "toolset" ++ quoteStr "") ++
           [','] ++ keyColon "direction" ++ quoteStr "request" ++
           [','] ++ keyColon "timestamp" ++ ('"' :: natDecimal 0 ++ ['"']) ++
           [','] ++ keyColon "payload" ++ "[1,2]".data ++ ['}']) ++ ['\n'])) }) :=
  ⟨(C4_payload_validated_not_verbatim ⟨some [], some []⟩ "s" "" "request" 0
      ("hi".data) (by decide)).1 (by decide),
   (C4_payload_validated_not_verbatim ⟨some [], some []⟩ "s" "" "request" 0
      ("[1, 2]".data) (by decide)).2 ("[1,2]".data) (by decide) [] rfl⟩

/-- C4 counterexample: the payload `hi` is a caller-supplied byte sequence
that is not valid JSON; `RecordMessage` does not store it verbatim — it
fails, refuting "the operation succeeds regardless of payload structure". -/
theorem C4_payload_counterexample :
    recordMessage (some ⟨some [], some []⟩) "s" "" "request" 0 ("hi".data) =
      (some .marshalErr, some ⟨some [], some []⟩) := by
  decide

theorem map_eq_self_mem (f : Char → Char) (l : List Char) (h : l.map f = l) :
    ∀ c ∈ l, f c = c := by
  induction l with
  | nil => intro c hc; cases hc
  | cons a l ih =>
    rw [List.map_cons, List.cons.injEq] at h
    intro c hc
    rcases List.mem_cons.mp hc with rfl | hc
    · exact h.1
    · exact ih h.2 c hc

/-- C10: the log file lives under the sanitized token while each stored
message keeps the raw session id: two raw ids with the same sanitized token
land in one file and load back as a single merged chat named by the token,
whose messages retain the two raw ids; and an id containing a character
outside letters/digits/`-`/`_`/`.` differs from its sanitized token. -/
theorem C10_sanitized_filename_raw_messages (S1 S2 ts dir : String)
    (tm1 tm2 : Nat) (v1 v2 : JVal) (ar : Option Dirn)
    (h1 : S1 ≠ "") (h2 : S2 ≠ "")
    (hsame : sanitizeSessionID S2 = sanitizeSessionID S1)
    (hwf1 : wfV v1 = true) (hwf2 : wfV v2 = true) :
    (∃ fs1 fs2 : FS,
      recordMessage (some ⟨some [], ar⟩) S1 ts dir tm1 (renderV v1) =
        (none, some fs1) ∧
      recordMessage (some fs1) S2 ts dir tm2 (renderV v2) = (none, some fs2) ∧
      loadChats fs2 false =
        some [⟨sanitizeSessionID S1, false,
          [⟨S1, ts, dir, tm1, renderV v1⟩, ⟨S2, ts, dir, tm2, renderV v2⟩]⟩]) ∧
    ((∃ c ∈ S1.data, sanChar c ≠ c) → sanitizeSessionID S1 ≠ S1) := by
  have hfile : sessionFile S2 = sessionFile S1 := by
    rw [sessionFile, sessionFile, hsame]
  obtain ⟨line1, hmar1, hunm1, hnl1, hlast1⟩ :=
    marshalMessage_roundtrip S1 ts dir tm1 v1 hwf1
  obtain ⟨line2, hmar2, hunm2, hnl2, hlast2⟩ :=
    marshalMessage_roundtrip S2 ts dir tm2 v2 hwf2
  constructor
  · have hrec1 := recordMessageF_ok [] ar S1 ts dir tm1 (renderV v1) line1 h1 hmar1
    rw [show dirGet [] (sessionFile S1) = none from rfl] at hrec1
    rw [show ((none : Option Bytes).getD []) ++ line1 ++ ['\n'] = line1 ++ ['\n'] by simp,
      show dirPut [] (sessionFile S1) (line1 ++ ['\n']) =
        [(sessionFile S1, line1 ++ ['\n'])] from rfl] at hrec1
    have hrec2 := recordMessageF_ok [(sessionFile S1, line1 ++ ['\n'])] ar
      S2 ts dir tm2 (renderV v2) line2 h2 hmar2
    rw [hfile] at hrec2
    rw [show dirGet [(sessionFile S1, line1 ++ ['\n'])] (sessionFile S1) =
        some (line1 ++ ['\n']) by simp [dirGet],
      Option.getD_some,
      show dirPut [(sessionFile S1, line1 ++ ['\n'])] (sessionFile S1)
          ((line1 ++ ['\n']) ++ line2 ++ ['\n']) =
        [(sessionFile S1, (line1 ++ ['\n']) ++ line2 ++ ['\n'])] by simp [dirPut]]
      at hrec2
    refine ⟨⟨some [(sessionFile S1, line1 ++ ['\n'])], ar⟩,
      ⟨some [(sessionFile S1, (line1 ++ ['\n']) ++ line2 ++ ['\n'])], ar⟩, ?_, ?_, ?_⟩
    · simp only [recordMessage, hrec1]
    · simp only [recordMessage, hrec2]
    · rw [show loadChats
          ⟨some [(sessionFile S1, (line1 ++ ['\n']) ++ line2 ++ ['\n'])], ar⟩ false =
        loadChatsEntries false (readDirSorted
          [(sessionFile S1, (line1 ++ ['\n']) ++ line2 ++ ['\n'])]) from rfl]
      rw [show readDirSorted
          [(sessionFile S1, (line1 ++ ['\n']) ++ line2 ++ ['\n'])] =
        [(sessionFile S1, (line1 ++ ['\n']) ++ line2 ++ ['\n'])] from rfl]
      rw [show (line1 ++ ['\n']) ++ line2 ++ ['\n'] =
        (line1 ++ ['\n']) ++ (line2 ++ ['\n']) by rw [List.append_assoc]]
      rw [loadChatsEntries_single S1 ((line1 ++ ['\n']) ++ (line2 ++ ['\n']))
        [⟨S1, ts, dir, tm1, renderV v1⟩, ⟨S2, ts, dir, tm2, renderV v2⟩] false
        (readMessages_two line1 line2 _ _ hnl1 hnl2 hlast1 hlast2 hunm1 hunm2)]
  · rintro ⟨c, hc, hne⟩ heq
    have hdata : S1.data.map sanChar = S1.data := congrArg String.data heq
    exact hne (map_eq_self_mem sanChar S1.data hdata c hc)

/-- C10 witness: raw ids `a!b` and `a?b` share the sanitized token `a_b`. -/
theorem C10_sanitized_filename_raw_messages_witness :
    (∃ fs1 fs2 : FS,
      recordMessage (some ⟨some [], some []⟩) "a!b" "" "request" 0 (renderV .jnull) =
        (none, some fs1) ∧
      recordMessage (some fs1) "a?b" "" "request" 1 (renderV .jnull) =
        (none, some fs2) ∧
      loadChats fs2 false =
        some [⟨sanitizeSessionID "a!b", false,
          [⟨"a!b", "", "request", 0, renderV .jnull⟩,
           ⟨"a?b", "", "request", 1, renderV .jnull⟩]⟩]) ∧
    ((∃ c ∈ "a!b".data, sanChar c ≠ c) → sanitizeSessionID "a!b" ≠ "a!b") :=
  C10_sanitized_filename_raw_messages "a!b" "a?b" "" "request" 0 1 .jnull .jnull
    (some []) (by decide) (by decide) (by decide) (by decide) (by decide)

/-- C1 (amended): `ExportAll` counts each status before concatenation and
sorts the concatenation by session id.  For exports of at most twelve chats
(`sort.Slice`'s insertion-sort regime) the order is stable: equal session
ids keep their input order, active-derived entries before archived-derived
ones.  (Beyond twelve chats `sort.Slice` is pdqsort and not stable — see the
counterexample.) -/
theorem C1_export_counts_sorted_stable (fs : FS) (now : Nat) (path : String)
    (la lar : List Chat) (hpath : trimSpace path ≠ "")
    (ha : loadChats fs false = some la) (hb : loadChats fs true = some lar)
    (hsmall : la.length + lar.length ≤ 12) :
    ∃ e : Export, exportAll (some fs) now path = .ok e ∧
      e.activeChats = la.length ∧ e.archivedChats = lar.length ∧
      ChatsSorted e.chats ∧
      (∀ k, e.chats.filter (fun c => c.sessionID == k) =
        (la ++ lar).filter (fun c => c.sessionID == k)) := by
  have hexp : exportAll (some fs) now path = .ok
      { exportedAt := now, activeChats := la.length, archivedChats := lar.length,
        chats := sortSlice (la ++ lar) } := by
    simp only [exportAll, if_neg hpath, ha, hb]
  have hlen : (la ++ lar).length ≤ 12 := by rw [List.length_append]; omega
  refine ⟨_, hexp, rfl, rfl, ?_, ?_⟩
  · show ChatsSorted (sortSlice (la ++ lar))
    rw [sortSlice_small _ hlen]
    exact stableSort_sorted _
  · intro k
    show (sortSlice (la ++ lar)).filter (fun c => c.sessionID == k) =
      (la ++ lar).filter (fun c => c.sessionID == k)
    rw [sortSlice_small _ hlen]
    exact stableSort_filter _ k

/-- C1 witness: one active chat `abc` (two messages), one archived chat
`xyz` (one message); the export counts 1/1 and lists `abc` before `xyz`. -/
theorem C1_export_counts_sorted_stable_witness :
    ∃ e : Export,
      exportAll (some ⟨some [("abc.jsonl", "null\nnull\n".data)],
                       some [("xyz.jsonl", "null\n".data)]⟩) 0 "out.json" = .ok e ∧
      e.activeChats = [(⟨"abc", false, [default, default]⟩ : Chat)].length ∧
      e.archivedChats = [(⟨"xyz", true, [default]⟩ : Chat)].length ∧
      ChatsSorted e.chats ∧
      (∀ k, e.chats.filter (fun c => c.sessionID == k) =
        ([(⟨"abc", false, [default, default]⟩ : Chat)] ++
         [(⟨"xyz", true, [default]⟩ : Chat)]).filter (fun c => c.sessionID == k)) :=
  C1_export_counts_sorted_stable
    ⟨some [("abc.jsonl", "null\nnull\n".data)], some [("xyz.jsonl", "null\n".data)]⟩
    0 "out.json" [⟨"abc", false, [default, default]⟩] [⟨"xyz", true, [default]⟩]
    (by decide) (by decide) (by decide) (by decide)

/-- A thirteen-chat store: six session ids present in both statuses plus one
extra active chat, pushing `sort.Slice` past the insertion-sort regime. -/
def c1badFS : FS :=
  ⟨some [("x0.jsonl", []), ("x1.jsonl", []), ("x2.jsonl", []), ("x3.jsonl", []),
         ("x4.jsonl", []), ("x5.jsonl", []), ("z.jsonl", [])],
   some [("x0.jsonl", []), ("x1.jsonl", []), ("x2.jsonl", []), ("x3.jsonl", []),
         ("x4.jsonl", []), ("x5.jsonl", [])]⟩

def c1badActiveChats : List Chat :=
  [⟨"x0", false, []⟩, ⟨"x1", false, []⟩, ⟨"x2", false, []⟩, ⟨"x3", false, []⟩,
   ⟨"x4", false, []⟩, ⟨"x5", false, []⟩, ⟨"z", false, []⟩]

def c1badArchivedChats : List Chat :=
  [⟨"x0", true, []⟩, ⟨"x1", true, []⟩, ⟨"x2", true, []⟩, ⟨"x3", true, []⟩,
   ⟨"x4", true, []⟩, ⟨"x5", true, []⟩]

/-- C1 counterexample: with thirteen chats `sort.Slice` runs pdqsort's
partition, which swaps across equal keys: the exported list puts the
archived `x0` chat *before* the active one, though the input concatenation
had the active `x0` first — the sort is not stable, refuting the claim's
stable-ordering clause. -/
theorem C1_export_stability_counterexample :
    ∃ e : Export, exportAll (some c1badFS) 0 "out.json" = .ok e ∧
      loadChats c1badFS false = some c1badActiveChats ∧
      loadChats c1badFS true = some c1badArchivedChats ∧
      (c1badActiveChats ++ c1badArchivedChats).filter
          (fun c => c.sessionID == "x0") =
        [⟨"x0", false, []⟩, ⟨"x0", true, []⟩] ∧
      e.chats.filter (fun c => c.sessionID == "x0") =
        [⟨"x0", true, []⟩, ⟨"x0", false, []⟩] :=
  ⟨⟨0, 7, 6, sortSlice (c1badActiveChats ++ c1badArchivedChats)⟩,
    by rfl, by decide, by decide, by decide, by decide⟩

/-- C2 witness: a session with two archived and two active records, each a
`null` line, merges to the four records in order. -/
theorem C2_archive_merge_order_witness :
    archiveSession ⟨some [("s.jsonl", "null\nnull\n".data)],
                    some [("s.jsonl", "null\nnull\n".data)]⟩ "s" =
      (none, ⟨some (dirDel [("s.jsonl", "null\nnull\n".data)] (sessionFile "s")),
              some (dirPut [("s.jsonl", "null\nnull\n".data)] (sessionFile "s")
                ("null\nnull\n".data ++ "null\nnull\n".data))⟩) ∧
    dirGet (dirPut [("s.jsonl", "null\nnull\n".data)] (sessionFile "s")
        ("null\nnull\n".data ++ "null\nnull\n".data)) (sessionFile "s") =
      some ("null\nnull\n".data ++ "null\nnull\n".data) ∧
    readMessages ("null\nnull\n".data ++ "null\nnull\n".data) =
      some [default, default, default, default] ∧
    dirGet (dirDel [("s.jsonl", "null\nnull\n".data)] (sessionFile "s"))
      (sessionFile "s") = none :=
  C2_archive_merge_order "s" (by decide) [("s.jsonl", "null\nnull\n".data)]
    [("s.jsonl", "null\nnull\n".data)] ("null\nnull\n".data) ("null\nnull\n".data)
    default default default default (by decide) (by decide) (by decide) (by decide)
    (by decide)

end ChatStore
